import Mathlib

/-!
Verification of the recipe-management backend's core logic: user-owned
Tags/Ingredients, Recipes with many-to-many association sets, the
tag/ingredient reconciliation performed on recipe create/update,
owner-scoped access, list filtering and ordering.

The repository's serializer/view/model layer is not part of the source
tree available here (only its test suite is), so the definitions below
are modelled from the specification (and, for list ordering, from the
expected values pinned by the test suite), as noted on each definition.
-/

/-- A Tag or Ingredient row: `{id, name, owner}`.  Tags and Ingredients
have the same shape and lifecycle, in independent namespaces. -/
structure Entity where
  id : Nat
  owner : Nat
  name : String
deriving DecidableEq

/-- One of the two entity stores (the Tag table or the Ingredient table),
together with the next auto-increment id the store will assign. -/
structure EntTable where
  rows : List Entity
  nextId : Nat
deriving DecidableEq

/-- Owner-scoped lookup by exact, case-sensitive name: the first row of
the table belonging to `owner` and named `name`. -/
def findEnt (rows : List Entity) (owner : Nat) (name : String) : Option Entity :=
  rows.find? (fun e => e.owner == owner && e.name == name)

/-- Add an id to an id set kept as a duplicate-free list. -/
def insertSet (i : Nat) (ids : List Nat) : List Nat :=
  if i ∈ ids then ids else i :: ids

/-- Modelled from the spec: the `reconcile(owner, requested_names, …)`
contract of §4.1 (the serializer code implementing it is not in the
source tree).  Each requested name is resolved against the owner-scoped
lookup; a hit is reused, a miss creates a fresh row `{nextId, owner, name}`
appended to the table (so a name repeated in the same request resolves to
that same new row).  Returns the resolved association id set together with
the updated table. -/
def reconcile (owner : Nat) (names : List String) (t : EntTable) : List Nat × EntTable :=
  match names with
  | [] => ([], t)
  | n :: rest =>
    match findEnt t.rows owner n with
    | some e =>
      let r := reconcile owner rest t
      (insertSet e.id r.1, r.2)
    | none =>
      let r := reconcile owner rest ⟨t.rows ++ [⟨t.nextId, owner, n⟩], t.nextId + 1⟩
      (insertSet t.nextId r.1, r.2)

/-- Well-formedness of an entity store: ids are below the auto-increment
counter and no two rows share an id. -/
def EntTable.WF (t : EntTable) : Prop :=
  (∀ e ∈ t.rows, e.id < t.nextId) ∧ (t.rows.map Entity.id).Nodup

instance (t : EntTable) : Decidable t.WF := by
  unfold EntTable.WF
  infer_instance

/-- Insert into a list kept sorted by descending key. -/
def insDesc {α κ : Type} [LinearOrder κ] (key : α → κ) (a : α) : List α → List α
  | [] => [a]
  | b :: l => if key b ≤ key a then a :: b :: l else b :: insDesc key a l

/-- Insertion sort by descending key. -/
def sortDesc {α κ : Type} [LinearOrder κ] (key : α → κ) : List α → List α
  | [] => []
  | a :: l => insDesc key a (sortDesc key l)

/-- A Recipe row.  `tags` and `ingredients` are the many-to-many
association sets, stored as lists of entity ids.  `price` is modelled as
a non-negative scaled decimal. -/
structure Recipe where
  id : Nat
  owner : Nat
  title : String
  timeMinutes : Nat
  price : Nat
  description : String
  link : String
  image : Option String
  tags : List Nat
  ingredients : List Nat
deriving DecidableEq

/-- The entire entity store. -/
structure DB where
  tags : EntTable
  ingredients : EntTable
  recipes : List Recipe
  nextRecipeId : Nat
deriving DecidableEq

/-- A raw JSON-ish value arriving in a nested tag/ingredient entry:
either a string or something that is not a string. -/
inductive RawValue where
  | str (s : String)
  | nonStr
deriving DecidableEq

/-- A nested entry of a recipe payload's `tags`/`ingredients` array:
the `name` key may be missing, or hold a non-string value. -/
structure RawEntry where
  name : Option RawValue
deriving DecidableEq

/-- Maximum length of a Tag/Ingredient name field. -/
def maxNameLength : Nat := 255

/-- Modelled from the spec: a single nested entry is valid when the
`name` key is present, holds a string, and the string fits the field's
maximum length. -/
def validateEntry (e : RawEntry) : Option String :=
  match e.name with
  | some (RawValue.str s) => if s.length ≤ maxNameLength then some s else none
  | _ => none

/-- Modelled from the spec: validate a whole nested list; any malformed
entry fails the entire request (all-or-nothing). -/
def validateNames (l : List RawEntry) : Option (List String) :=
  match l with
  | [] => some []
  | e :: rest =>
    match validateEntry e, validateNames rest with
    | some n, some ns => some (n :: ns)
    | _, _ => none

/-- Modelled from the spec: an absent `tags`/`ingredients` key means
"leave associations untouched" and is vacuously valid; a present key is
validated entry by entry. -/
def validateField : Option (List RawEntry) → Option (Option (List String))
  | none => some none
  | some l =>
    match validateNames l with
    | some ns => some (some ns)
    | none => none

/-- A recipe create/update request body.  The `user` field models an
attempt to mutate the owner. -/
structure Payload where
  title : Option String := none
  timeMinutes : Option Nat := none
  price : Option Nat := none
  description : Option String := none
  link : Option String := none
  user : Option Nat := none
  tags : Option (List RawEntry) := none
  ingredients : Option (List RawEntry) := none
deriving DecidableEq

inductive ApiError where
  | notFound
  | validationError
deriving DecidableEq

/-- Owner-scoped recipe lookup by id: addressing another owner's id
behaves exactly like the id not existing. -/
def findRecipe (db : DB) (uid rid : Nat) : Option Recipe :=
  db.recipes.find? (fun r => r.id == rid && r.owner == uid)

/-- Write back an updated recipe row (same id). -/
def setRecipe (rs : List Recipe) (r : Recipe) : List Recipe :=
  rs.map (fun x => if x.id == r.id then r else x)

/-- Replace an association set from a validated optional field: an absent
field leaves the current association ids and the table untouched, a
present list is reconciled against the table for this owner. -/
def applyAssocField (owner : Nat) (cur : List Nat) (field : Option (List String))
    (t : EntTable) : List Nat × EntTable :=
  match field with
  | none => (cur, t)
  | some ns => reconcile owner ns t

/-- The successful body of a recipe update, after the owner-scoped lookup
found `r` and both nested fields validated. -/
def recipeUpdateCore (db : DB) (r : Recipe) (p : Payload)
    (tgs ings : Option (List String)) : DB :=
  let tr := applyAssocField r.owner r.tags tgs db.tags
  let ir := applyAssocField r.owner r.ingredients ings db.ingredients
  let r' : Recipe :=
    { r with
      title := p.title.getD r.title
      timeMinutes := p.timeMinutes.getD r.timeMinutes
      price := p.price.getD r.price
      description := p.description.getD r.description
      link := p.link.getD r.link
      tags := tr.1
      ingredients := ir.1 }
  { db with tags := tr.2, ingredients := ir.2,
            recipes := setRecipe db.recipes r' }

/-- Modelled from the spec: partial/full recipe update.  The recipe is
addressed owner-scoped; the nested association fields are validated
before any mutation; a present field replaces the whole association set
via `reconcile`, an absent field leaves it untouched; the `user` field of
the payload is never read (owner immutable, mutation silently ignored). -/
def recipeUpdate (db : DB) (uid rid : Nat) (p : Payload) : Except ApiError DB :=
  match findRecipe db uid rid with
  | none => Except.error ApiError.notFound
  | some r =>
    match validateField p.tags, validateField p.ingredients with
    | some tgs, some ings => Except.ok (recipeUpdateCore db r p tgs ings)
    | _, _ => Except.error ApiError.validationError

/-- The successful body of a recipe creation. -/
def recipeCreateCore (db : DB) (uid : Nat) (p : Payload) (title : String)
    (tm pr : Nat) (tgs ings : Option (List String)) : DB :=
  let tr := applyAssocField uid [] tgs db.tags
  let ir := applyAssocField uid [] ings db.ingredients
  let r : Recipe :=
    { id := db.nextRecipeId, owner := uid, title := title,
      timeMinutes := tm, price := pr,
      description := p.description.getD "", link := p.link.getD "",
      image := none, tags := tr.1, ingredients := ir.1 }
  { db with tags := tr.2, ingredients := ir.2,
            recipes := db.recipes ++ [r],
            nextRecipeId := db.nextRecipeId + 1 }

/-- Modelled from the spec: recipe creation.  The fields `title`,
`timeMinutes` and `price` are required; nested association fields are
validated before any mutation and reconciled for the authenticated owner;
the new row gets the next recipe id. -/
def recipeCreate (db : DB) (uid : Nat) (p : Payload) : Except ApiError DB :=
  match p.title, p.timeMinutes, p.price with
  | some title, some tm, some pr =>
    match validateField p.tags, validateField p.ingredients with
    | some tgs, some ings => Except.ok (recipeCreateCore db uid p title tm pr tgs ings)
    | _, _ => Except.error ApiError.validationError
  | _, _, _ => Except.error ApiError.validationError

/-- Modelled from the spec: owner-scoped recipe read. -/
def recipeDetail (db : DB) (uid rid : Nat) : Except ApiError Recipe :=
  match findRecipe db uid rid with
  | none => Except.error ApiError.notFound
  | some r => Except.ok r

/-- Modelled from the spec: owner-scoped recipe deletion. -/
def recipeDelete (db : DB) (uid rid : Nat) : Except ApiError DB :=
  match findRecipe db uid rid with
  | none => Except.error ApiError.notFound
  | some _ =>
    Except.ok { db with
      recipes := db.recipes.filter (fun r => !(r.id == rid && r.owner == uid)) }

/-- An uploaded file: a real image or something that is not an image. -/
inductive FileVal where
  | imageFile (ref : String)
  | badFile
deriving DecidableEq

/-- Modelled from the spec: recipe image upload.  A non-image upload is
rejected with a validation error and no state change. -/
def uploadImage (db : DB) (uid rid : Nat) (f : FileVal) : Except ApiError DB :=
  match findRecipe db uid rid with
  | none => Except.error ApiError.notFound
  | some r =>
    match f with
    | FileVal.imageFile ref =>
      Except.ok { db with recipes := setRecipe db.recipes { r with image := some ref } }
    | FileVal.badFile => Except.error ApiError.validationError

/-- Owner-scoped entity lookup by id. -/
def findEntOwned (t : EntTable) (uid eid : Nat) : Option Entity :=
  t.rows.find? (fun e => e.id == eid && e.owner == uid)

/-- Modelled from the spec: explicit Tag/Ingredient creation through the
entity's own endpoint, owned by the caller. -/
def entCreateT (t : EntTable) (uid : Nat) (n : String) : Except ApiError EntTable :=
  if n.length ≤ maxNameLength then
    Except.ok ⟨t.rows ++ [⟨t.nextId, uid, n⟩], t.nextId + 1⟩
  else Except.error ApiError.validationError

/-- Modelled from the spec: owner-scoped Tag/Ingredient rename. -/
def entUpdateT (t : EntTable) (uid eid : Nat) (n : String) : Except ApiError EntTable :=
  match findEntOwned t uid eid with
  | none => Except.error ApiError.notFound
  | some _ =>
    if n.length ≤ maxNameLength then
      Except.ok ⟨t.rows.map (fun e => if e.id == eid && e.owner == uid then { e with name := n } else e),
                 t.nextId⟩
    else Except.error ApiError.validationError

/-- Modelled from the spec: owner-scoped Tag/Ingredient deletion; the row
is removed and detached from every recipe's association set. -/
def entDeleteT (t : EntTable) (uid eid : Nat) : Except ApiError EntTable :=
  match findEntOwned t uid eid with
  | none => Except.error ApiError.notFound
  | some _ =>
    Except.ok ⟨t.rows.filter (fun e => !(e.id == eid && e.owner == uid)), t.nextId⟩

/-- Detach an entity id from every recipe's tag association set. -/
def detachTag (rs : List Recipe) (eid : Nat) : List Recipe :=
  rs.map (fun r => { r with tags := r.tags.filter (fun i => i ≠ eid) })

/-- Detach an entity id from every recipe's ingredient association set. -/
def detachIngredient (rs : List Recipe) (eid : Nat) : List Recipe :=
  rs.map (fun r => { r with ingredients := r.ingredients.filter (fun i => i ≠ eid) })

def tagCreate (db : DB) (uid : Nat) (n : String) : Except ApiError DB :=
  match entCreateT db.tags uid n with
  | Except.ok t => Except.ok { db with tags := t }
  | Except.error e => Except.error e

def tagUpdate (db : DB) (uid eid : Nat) (n : String) : Except ApiError DB :=
  match entUpdateT db.tags uid eid n with
  | Except.ok t => Except.ok { db with tags := t }
  | Except.error e => Except.error e

def tagDelete (db : DB) (uid eid : Nat) : Except ApiError DB :=
  match entDeleteT db.tags uid eid with
  | Except.ok t => Except.ok { db with tags := t, recipes := detachTag db.recipes eid }
  | Except.error e => Except.error e

def ingredientCreate (db : DB) (uid : Nat) (n : String) : Except ApiError DB :=
  match entCreateT db.ingredients uid n with
  | Except.ok t => Except.ok { db with ingredients := t }
  | Except.error e => Except.error e

def ingredientUpdate (db : DB) (uid eid : Nat) (n : String) : Except ApiError DB :=
  match entUpdateT db.ingredients uid eid n with
  | Except.ok t => Except.ok { db with ingredients := t }
  | Except.error e => Except.error e

def ingredientDelete (db : DB) (uid eid : Nat) : Except ApiError DB :=
  match entDeleteT db.ingredients uid eid with
  | Except.ok t => Except.ok { db with ingredients := t, recipes := detachIngredient db.recipes eid }
  | Except.error e => Except.error e

/-- Every mutating operation of the HTTP surface. -/
inductive Op where
  | rCreate (uid : Nat) (p : Payload)
  | rUpdate (uid rid : Nat) (p : Payload)
  | rDelete (uid rid : Nat)
  | rImage (uid rid : Nat) (f : FileVal)
  | tCreate (uid : Nat) (n : String)
  | tUpdate (uid eid : Nat) (n : String)
  | tDelete (uid eid : Nat)
  | iCreate (uid : Nat) (n : String)
  | iUpdate (uid eid : Nat) (n : String)
  | iDelete (uid eid : Nat)

/-- The transactional result of an operation: the new database on
success, the error otherwise. -/
def opResult (db : DB) : Op → Except ApiError DB
  | Op.rCreate uid p => recipeCreate db uid p
  | Op.rUpdate uid rid p => recipeUpdate db uid rid p
  | Op.rDelete uid rid => recipeDelete db uid rid
  | Op.rImage uid rid f => uploadImage db uid rid f
  | Op.tCreate uid n => tagCreate db uid n
  | Op.tUpdate uid eid n => tagUpdate db uid eid n
  | Op.tDelete uid eid => tagDelete db uid eid
  | Op.iCreate uid n => ingredientCreate db uid n
  | Op.iUpdate uid eid n => ingredientUpdate db uid eid n
  | Op.iDelete uid eid => ingredientDelete db uid eid

/-- The stored state after an operation: a failing operation rolls the
whole transaction back, leaving the database exactly as it was. -/
def applyOp (db : DB) (op : Op) : DB :=
  match opResult db op with
  | Except.ok db' => db'
  | Except.error _ => db

/-- Parse a comma-separated id list query value. -/
def parseIds (s : String) : List Nat :=
  (s.splitOn ",").filterMap String.toNat?

/-- Modelled from the spec and the test suite's expected values: the
recipe list endpoint.  Results are the caller's recipes, optionally
OR-filtered by tag / ingredient id lists, ordered by descending id. -/
def recipeList (db : DB) (uid : Nat) (tagsQ ingsQ : Option String) : List Recipe :=
  let base := db.recipes.filter (fun r => r.owner == uid)
  let f1 :=
    match tagsQ with
    | none => base
    | some s => base.filter (fun r => r.tags.any (fun i => (parseIds s).contains i))
  let f2 :=
    match ingsQ with
    | none => f1
    | some s => f1.filter (fun r => r.ingredients.any (fun i => (parseIds s).contains i))
  sortDesc Recipe.id f2

/-- Modelled from the spec and the test suite's expected values: the
Tag/Ingredient list endpoints.  Results are the caller's rows, restricted
to rows with at least one recipe association when `assignedOnly` is set,
ordered by descending name. -/
def entListT (t : EntTable) (assoc : Recipe → List Nat) (recipes : List Recipe)
    (uid : Nat) (assignedOnly : Bool) : List Entity :=
  let base := t.rows.filter (fun e => e.owner == uid)
  let f :=
    match assignedOnly with
    | true => base.filter (fun e => recipes.any (fun r => (assoc r).contains e.id))
    | false => base
  sortDesc Entity.name f

def tagList (db : DB) (uid : Nat) (assignedOnly : Bool) : List Entity :=
  entListT db.tags Recipe.tags db.recipes uid assignedOnly

def ingredientList (db : DB) (uid : Nat) (assignedOnly : Bool) : List Entity :=
  entListT db.ingredients Recipe.ingredients db.recipes uid assignedOnly

/-! ### Basic lemmas about `insertSet` and `findEnt` -/

theorem mem_insertSet {i j : Nat} {l : List Nat} : i ∈ insertSet j l ↔ i = j ∨ i ∈ l := by
  unfold insertSet
  split
  next hj =>
    constructor
    · exact fun h => Or.inr h
    · rintro (rfl | h)
      · exact hj
      · exact h
  next hj => simp [List.mem_cons]

theorem nodup_insertSet {j : Nat} {l : List Nat} (h : l.Nodup) : (insertSet j l).Nodup := by
  unfold insertSet
  split
  next => exact h
  next hj => exact List.nodup_cons.2 ⟨hj, h⟩

theorem toFinset_insertSet {j : Nat} {l : List Nat} :
    (insertSet j l).toFinset = insert j l.toFinset := by
  ext i
  simp [mem_insertSet]

theorem findEnt_prop {rows : List Entity} {o : Nat} {n : String} {e : Entity}
    (h : findEnt rows o n = some e) : e ∈ rows ∧ e.owner = o ∧ e.name = n := by
  unfold findEnt at h
  have hm := List.mem_of_find?_eq_some h
  have hp := List.find?_some h
  simp only [Bool.and_eq_true, beq_iff_eq] at hp
  exact ⟨hm, hp.1, hp.2⟩

theorem findEnt_append_some {rows ext : List Entity} {o : Nat} {n : String} {e : Entity}
    (h : findEnt rows o n = some e) : findEnt (rows ++ ext) o n = some e := by
  unfold findEnt at *
  rw [List.find?_append, h]
  rfl

theorem findEnt_append_none {rows ext : List Entity} {o : Nat} {n : String}
    (h : findEnt rows o n = none) : findEnt (rows ++ ext) o n = findEnt ext o n := by
  unfold findEnt at *
  rw [List.find?_append, h]
  rfl

theorem findEnt_single {o nx : Nat} {n m : String} :
    findEnt [⟨nx, o, n⟩] o m = if m = n then some ⟨nx, o, n⟩ else none := by
  by_cases h : m = n
  · subst h
    simp [findEnt, List.find?]
  · have hb : (n == m) = false := beq_eq_false_iff_ne.2 (Ne.symm h)
    simp [findEnt, List.find?, hb, h]

/-- After appending the freshly created row for an unfound name `n`, the
owner-scoped lookup of a name `m` finds: the old result when `m` was
already present, the new row when `m = n`, nothing otherwise. -/
theorem findEnt_snoc {rows : List Entity} {o nx : Nat} {n m : String} :
    findEnt (rows ++ [⟨nx, o, n⟩]) o m =
      match findEnt rows o m with
      | some e => some e
      | none => if m = n then some ⟨nx, o, n⟩ else none := by
  cases h : findEnt rows o m with
  | some e => simpa using findEnt_append_some h
  | none =>
    rw [findEnt_append_none h, findEnt_single]

/-! ### Rewrite equations for `reconcile` -/

theorem reconcile_nil (owner : Nat) (t : EntTable) : reconcile owner [] t = ([], t) := rfl

theorem reconcile_cons_found {owner : Nat} {n : String} {rest : List String} {t : EntTable}
    {e : Entity} (h : findEnt t.rows owner n = some e) :
    reconcile owner (n :: rest) t =
      (insertSet e.id (reconcile owner rest t).1, (reconcile owner rest t).2) := by
  simp only [reconcile]
  rw [h]

theorem reconcile_cons_new {owner : Nat} {n : String} {rest : List String} {t : EntTable}
    (h : findEnt t.rows owner n = none) :
    reconcile owner (n :: rest) t =
      (insertSet t.nextId
        (reconcile owner rest ⟨t.rows ++ [⟨t.nextId, owner, n⟩], t.nextId + 1⟩).1,
       (reconcile owner rest ⟨t.rows ++ [⟨t.nextId, owner, n⟩], t.nextId + 1⟩).2) := by
  simp only [reconcile]
  rw [h]

/-! ### Structural lemmas about `reconcile` -/

/-- Reconciliation only ever appends rows: the old table is an intact
prefix of the new one, the auto-increment counter never goes down, and
every appended row belongs to the requesting owner, is named by one of
the requested names, and carries a fresh id. -/
theorem reconcile_ext (owner : Nat) (names : List String) (t : EntTable) :
    ∃ ext, (reconcile owner names t).2.rows = t.rows ++ ext ∧
      t.nextId ≤ (reconcile owner names t).2.nextId ∧
      ∀ e ∈ ext, e.owner = owner ∧ e.name ∈ names ∧ t.nextId ≤ e.id ∧
        e.id < (reconcile owner names t).2.nextId := by
  induction names generalizing t with
  | nil => exact ⟨[], by simp [reconcile_nil], le_refl _, by simp⟩
  | cons n rest ih =>
    cases hf : findEnt t.rows owner n with
    | some e =>
      rw [reconcile_cons_found hf]
      obtain ⟨ext, hrows, hle, hext⟩ := ih t
      refine ⟨ext, hrows, hle, fun e' he' => ?_⟩
      obtain ⟨h1, h2, h3, h4⟩ := hext e' he'
      exact ⟨h1, List.mem_cons_of_mem _ h2, h3, h4⟩
    | none =>
      rw [reconcile_cons_new hf]
      dsimp only
      obtain ⟨ext, hrows, hle, hext⟩ := ih ⟨t.rows ++ [⟨t.nextId, owner, n⟩], t.nextId + 1⟩
      simp only at hrows hle hext
      refine ⟨⟨t.nextId, owner, n⟩ :: ext, ?_, ?_, ?_⟩
      · rw [hrows]; simp
      · omega
      · intro e' he'
        rcases List.mem_cons.1 he' with rfl | h
        · exact ⟨rfl, List.mem_cons_self _ _, le_refl _, by dsimp only; omega⟩
        · obtain ⟨h1, h2, h3, h4⟩ := hext e' h
          exact ⟨h1, List.mem_cons_of_mem _ h2, by omega, h4⟩

/-- In the table produced for an unfound head name, that name resolves to
the freshly created row, even after the remaining names are processed. -/
theorem findEnt_after_new {owner : Nat} {n : String} (rest : List String) {t : EntTable}
    (hf : findEnt t.rows owner n = none) :
    findEnt (reconcile owner rest ⟨t.rows ++ [⟨t.nextId, owner, n⟩], t.nextId + 1⟩).2.rows
      owner n = some ⟨t.nextId, owner, n⟩ := by
  obtain ⟨ext, hrows, -, -⟩ := reconcile_ext owner rest ⟨t.rows ++ [⟨t.nextId, owner, n⟩], t.nextId + 1⟩
  rw [hrows]
  simp only [List.append_assoc]
  rw [findEnt_append_none hf]
  unfold findEnt
  rw [List.cons_append]
  exact List.find?_cons_of_pos _ (by simp)

/-- Membership characterization: an id belongs to the reconciled
association set exactly when it is the id the final table resolves one of
the requested names to, for this owner. -/
theorem reconcile_mem (owner : Nat) (names : List String) (t : EntTable) (i : Nat) :
    i ∈ (reconcile owner names t).1 ↔
      ∃ n ∈ names, ∃ e, findEnt (reconcile owner names t).2.rows owner n = some e ∧
        e.id = i := by
  induction names generalizing t with
  | nil => simp [reconcile_nil]
  | cons n rest ih =>
    cases hf : findEnt t.rows owner n with
    | some e =>
      rw [reconcile_cons_found hf]
      obtain ⟨ext, hrows, -, -⟩ := reconcile_ext owner rest t
      have hstab : findEnt (reconcile owner rest t).2.rows owner n = some e := by
        rw [hrows]; exact findEnt_append_some hf
      simp only [mem_insertSet, List.mem_cons]
      constructor
      · rintro (rfl | h)
        · exact ⟨n, Or.inl rfl, e, hstab, rfl⟩
        · obtain ⟨m, hm, e', he', hid⟩ := (ih t).1 h
          exact ⟨m, Or.inr hm, e', he', hid⟩
      · rintro ⟨m, hm, e', he', hid⟩
        rcases hm with rfl | hm
        · rw [hstab] at he'
          cases he'
          exact Or.inl hid.symm
        · exact Or.inr ((ih t).2 ⟨m, hm, e', he', hid⟩)
    | none =>
      rw [reconcile_cons_new hf]
      have hstab := findEnt_after_new rest hf
      simp only [mem_insertSet, List.mem_cons]
      constructor
      · rintro (rfl | h)
        · exact ⟨n, Or.inl rfl, ⟨t.nextId, owner, n⟩, hstab, rfl⟩
        · obtain ⟨m, hm, e', he', hid⟩ := (ih _).1 h
          exact ⟨m, Or.inr hm, e', he', hid⟩
      · rintro ⟨m, hm, e', he', hid⟩
        rcases hm with rfl | hm
        · rw [hstab] at he'
          cases he'
          exact Or.inl hid.symm
        · exact Or.inr ((ih _).2 ⟨m, hm, e', he', hid⟩)

/-- Reconciliation preserves table well-formedness. -/
theorem reconcile_WF (owner : Nat) (names : List String) {t : EntTable} (h : t.WF) :
    (reconcile owner names t).2.WF := by
  induction names generalizing t with
  | nil =>
    rw [reconcile_nil]
    exact h
  | cons n rest ih =>
    cases hf : findEnt t.rows owner n with
    | some e =>
      rw [reconcile_cons_found hf]
      exact ih h
    | none =>
      rw [reconcile_cons_new hf]
      apply ih
      constructor
      · intro e he
        rcases List.mem_append.1 he with h1 | h1
        · have := h.1 e h1
          dsimp only
          omega
        · rcases List.mem_singleton.1 h1 with rfl
          simp
      · simp only [List.map_append, List.map_cons, List.map_nil]
        rw [List.nodup_append]
        refine ⟨h.2, List.nodup_singleton _, ?_⟩
        intro a ha hb
        rcases List.mem_singleton.1 hb with rfl
        rcases List.mem_map.1 ha with ⟨e, he, hid⟩
        have := h.1 e he
        omega

/-- Idempotence at the store level: re-running `reconcile` with the same
name list on the table it produced yields the very same association set
and leaves the table (and its id counter) untouched. -/
theorem reconcile_stable (owner : Nat) (names : List String) (t : EntTable) :
    reconcile owner names (reconcile owner names t).2 = reconcile owner names t := by
  induction names generalizing t with
  | nil => simp [reconcile_nil]
  | cons n rest ih =>
    cases hf : findEnt t.rows owner n with
    | some e =>
      rw [reconcile_cons_found hf]
      obtain ⟨ext, hrows, -, -⟩ := reconcile_ext owner rest t
      have hstab : findEnt (reconcile owner rest t).2.rows owner n = some e := by
        rw [hrows]; exact findEnt_append_some hf
      rw [reconcile_cons_found hstab, ih t]
    | none =>
      rw [reconcile_cons_new hf]
      have hstab := findEnt_after_new rest hf
      rw [reconcile_cons_found hstab, ih _]

/-- The reconciled association set never contains an id twice. -/
theorem reconcile_ids_nodup (owner : Nat) (names : List String) (t : EntTable) :
    (reconcile owner names t).1.Nodup := by
  induction names generalizing t with
  | nil => simp [reconcile_nil]
  | cons n rest ih =>
    cases hf : findEnt t.rows owner n with
    | some e =>
      rw [reconcile_cons_found hf]
      exact nodup_insertSet (ih t)
    | none =>
      rw [reconcile_cons_new hf]
      exact nodup_insertSet (ih _)

/-! ### The reconciled id set as a function of the initial table -/

/-- Ids that the initial table already resolves some requested name to. -/
def resolvedIds (rows : List Entity) (owner : Nat) (names : List String) : Finset Nat :=
  (names.filterMap (fun n => (findEnt rows owner n).map Entity.id)).toFinset

/-- The distinct requested names the initial table does not know. -/
def newNames (rows : List Entity) (owner : Nat) (names : List String) : Finset String :=
  (names.filter (fun n => (findEnt rows owner n).isNone)).toFinset

theorem mem_resolvedIds {rows : List Entity} {owner : Nat} {names : List String} {i : Nat} :
    i ∈ resolvedIds rows owner names ↔
      ∃ n ∈ names, ∃ e, findEnt rows owner n = some e ∧ e.id = i := by
  unfold resolvedIds
  simp [List.mem_filterMap, Option.map_eq_some']

theorem mem_newNames {rows : List Entity} {owner : Nat} {names : List String} {n : String} :
    n ∈ newNames rows owner names ↔ n ∈ names ∧ findEnt rows owner n = none := by
  unfold newNames
  simp [List.mem_filter, Option.isNone_iff_eq_none]

theorem findEnt_snoc_some_iff {rows : List Entity} {owner nx : Nat} {n m : String}
    {e : Entity} :
    findEnt (rows ++ [⟨nx, owner, n⟩]) owner m = some e ↔
      findEnt rows owner m = some e ∨
        (findEnt rows owner m = none ∧ m = n ∧ e = ⟨nx, owner, n⟩) := by
  cases h2 : findEnt rows owner m with
  | some e' =>
    rw [findEnt_append_some h2]
    constructor
    · intro he
      exact Or.inl he
    · rintro (he | ⟨hc, -, -⟩)
      · exact he
      · exact Option.noConfusion hc
  | none =>
    rw [findEnt_append_none h2, findEnt_single]
    by_cases hmn : m = n
    · rw [if_pos hmn]
      constructor
      · intro he
        injection he with he
        exact Or.inr ⟨rfl, hmn, he.symm⟩
      · rintro (he | ⟨-, -, rfl⟩)
        · exact Option.noConfusion he
        · rfl
    · rw [if_neg hmn]
      constructor
      · intro he
        exact Option.noConfusion he
      · rintro (he | ⟨-, hmn', -⟩)
        · exact Option.noConfusion he
        · exact absurd hmn' hmn

theorem findEnt_snoc_none_iff {rows : List Entity} {owner nx : Nat} {n m : String} :
    findEnt (rows ++ [⟨nx, owner, n⟩]) owner m = none ↔
      findEnt rows owner m = none ∧ m ≠ n := by
  cases h2 : findEnt rows owner m with
  | some e' =>
    rw [findEnt_append_some h2]
    constructor
    · intro he
      exact Option.noConfusion he
    · rintro ⟨hc, -⟩
      exact Option.noConfusion hc
  | none =>
    rw [findEnt_append_none h2, findEnt_single]
    by_cases hmn : m = n
    · rw [if_pos hmn]
      constructor
      · intro he
        exact Option.noConfusion he
      · rintro ⟨-, hmn'⟩
        exact absurd hmn hmn'
    · rw [if_neg hmn]
      exact ⟨fun _ => ⟨rfl, hmn⟩, fun _ => rfl⟩

theorem mem_resolvedIds_snoc {rows : List Entity} {owner nx : Nat} {n : String}
    {rest : List String} (hf : findEnt rows owner n = none) (i : Nat) :
    i ∈ resolvedIds (rows ++ [⟨nx, owner, n⟩]) owner rest ↔
      i ∈ resolvedIds rows owner rest ∨ (n ∈ rest ∧ i = nx) := by
  simp only [mem_resolvedIds]
  constructor
  · rintro ⟨m, hm, e, he, hid⟩
    rcases findEnt_snoc_some_iff.1 he with h2 | ⟨-, hmn, he2⟩
    · exact Or.inl ⟨m, hm, e, h2, hid⟩
    · subst hmn
      subst he2
      exact Or.inr ⟨hm, hid.symm⟩
  · rintro (⟨m, hm, e, he, hid⟩ | ⟨hm, heq⟩)
    · exact ⟨m, hm, e, findEnt_snoc_some_iff.2 (Or.inl he), hid⟩
    · exact ⟨n, hm, ⟨nx, owner, n⟩, findEnt_snoc_some_iff.2 (Or.inr ⟨hf, rfl, rfl⟩), heq.symm⟩

theorem newNames_snoc {rows : List Entity} {owner nx : Nat} {n : String}
    {rest : List String} :
    newNames (rows ++ [⟨nx, owner, n⟩]) owner rest = (newNames rows owner rest).erase n := by
  ext m
  simp only [mem_newNames, Finset.mem_erase, findEnt_snoc_none_iff]
  constructor
  · rintro ⟨hm, he, hmn⟩
    exact ⟨hmn, hm, he⟩
  · rintro ⟨hmn, hm, he⟩
    exact ⟨hm, he, hmn⟩

theorem card_insert_erase {s : Finset String} {n : String} :
    (insert n s).card = ((s.erase n).card) + 1 := by
  have h : insert n s = insert n (s.erase n) := by
    ext m
    simp only [Finset.mem_insert, Finset.mem_erase]
    constructor
    · rintro (rfl | hm)
      · exact Or.inl rfl
      · by_cases hmn : m = n
        · exact Or.inl hmn
        · exact Or.inr ⟨hmn, hm⟩
    · rintro (rfl | ⟨-, hm⟩)
      · exact Or.inl rfl
      · exact Or.inr hm
  rw [h, Finset.card_insert_of_not_mem (Finset.not_mem_erase n s)]

/-- The reconciled id set, as a set, is the set of ids the requested
names already resolved to, together with a contiguous block of fresh ids,
one per distinct unknown name. -/
theorem reconcile_toFinset (owner : Nat) (names : List String) (t : EntTable) :
    (reconcile owner names t).1.toFinset =
      resolvedIds t.rows owner names ∪
        Finset.Ico t.nextId (t.nextId + (newNames t.rows owner names).card) := by
  induction names generalizing t with
  | nil => simp [reconcile_nil, resolvedIds, newNames]
  | cons n rest ih =>
    cases hf : findEnt t.rows owner n with
    | some e =>
      rw [reconcile_cons_found hf]
      dsimp only
      rw [toFinset_insertSet, ih t]
      have h1 : resolvedIds t.rows owner (n :: rest) =
          insert e.id (resolvedIds t.rows owner rest) := by
        unfold resolvedIds
        rw [List.filterMap_cons]
        rw [hf]
        simp
      have h2 : newNames t.rows owner (n :: rest) = newNames t.rows owner rest := by
        unfold newNames
        rw [List.filter_cons]
        rw [hf]
        simp
      rw [h1, h2, Finset.insert_union]
    | none =>
      rw [reconcile_cons_new hf]
      dsimp only
      rw [toFinset_insertSet,
        ih (⟨t.rows ++ [(⟨t.nextId, owner, n⟩ : Entity)], t.nextId + 1⟩ : EntTable)]
      dsimp only
      have h1 : resolvedIds t.rows owner (n :: rest) = resolvedIds t.rows owner rest := by
        unfold resolvedIds
        rw [List.filterMap_cons, hf]
        simp
      have h2 : newNames t.rows owner (n :: rest) = insert n (newNames t.rows owner rest) := by
        unfold newNames
        rw [List.filter_cons, hf]
        simp
      rw [newNames_snoc, h1, h2, card_insert_erase]
      ext i
      simp only [Finset.mem_insert, Finset.mem_union, Finset.mem_Ico,
        mem_resolvedIds_snoc hf]
      constructor
      · rintro (rfl | (h | ⟨-, rfl⟩) | ⟨h1', h2'⟩)
        · exact Or.inr ⟨le_refl _, by omega⟩
        · exact Or.inl h
        · exact Or.inr ⟨le_refl _, by omega⟩
        · exact Or.inr ⟨by omega, by omega⟩
      · rintro (h | ⟨h1', h2'⟩)
        · exact Or.inr (Or.inl (Or.inl h))
        · by_cases hi : i = t.nextId
          · exact Or.inl hi
          · exact Or.inr (Or.inr ⟨by omega, by omega⟩)

/-! ### Permutation invariance and counting -/

theorem resolvedIds_congr {rows : List Entity} {owner : Nat} {L L' : List String}
    (h : ∀ n, n ∈ L ↔ n ∈ L') :
    resolvedIds rows owner L = resolvedIds rows owner L' := by
  ext i
  simp only [mem_resolvedIds]
  constructor <;> rintro ⟨m, hm, e, he, hid⟩
  · exact ⟨m, (h m).1 hm, e, he, hid⟩
  · exact ⟨m, (h m).2 hm, e, he, hid⟩

theorem newNames_congr {rows : List Entity} {owner : Nat} {L L' : List String}
    (h : ∀ n, n ∈ L ↔ n ∈ L') :
    newNames rows owner L = newNames rows owner L' := by
  ext m
  simp only [mem_newNames, h]

/-- Permuting the requested names does not change the reconciled
association id set. -/
theorem reconcile_perm_toFinset (owner : Nat) {L L' : List String} (t : EntTable)
    (h : L.Perm L') :
    (reconcile owner L' t).1.toFinset = (reconcile owner L t).1.toFinset := by
  rw [reconcile_toFinset, reconcile_toFinset,
    resolvedIds_congr (fun n => (h.mem_iff (a := n)).symm : ∀ n, n ∈ L' ↔ n ∈ L),
    newNames_congr (fun n => (h.mem_iff (a := n)).symm : ∀ n, n ∈ L' ↔ n ∈ L)]

/-- The distinct requested names that the initial table already knows. -/
def foundNames (rows : List Entity) (owner : Nat) (names : List String) : Finset String :=
  (names.filter (fun n => (findEnt rows owner n).isSome)).toFinset

theorem mem_foundNames {rows : List Entity} {owner : Nat} {names : List String}
    {n : String} :
    n ∈ foundNames rows owner names ↔ n ∈ names ∧ (findEnt rows owner n).isSome = true := by
  unfold foundNames
  simp [List.mem_filter]

/-- With duplicate-free row ids, distinct known names resolve to distinct
ids, so the resolved-id set is as large as the known-name set. -/
theorem card_resolvedIds {rows : List Entity} {owner : Nat} {names : List String}
    (hnd : (rows.map Entity.id).Nodup) :
    (resolvedIds rows owner names).card = (foundNames rows owner names).card := by
  induction names with
  | nil => simp [resolvedIds, foundNames]
  | cons n rest ih =>
    cases hf : findEnt rows owner n with
    | none =>
      have h1 : resolvedIds rows owner (n :: rest) = resolvedIds rows owner rest := by
        unfold resolvedIds
        rw [List.filterMap_cons, hf]
        simp
      have h2 : foundNames rows owner (n :: rest) = foundNames rows owner rest := by
        unfold foundNames
        rw [List.filter_cons, hf]
        simp
      rw [h1, h2, ih]
    | some e =>
      have h1 : resolvedIds rows owner (n :: rest) =
          insert e.id (resolvedIds rows owner rest) := by
        unfold resolvedIds
        rw [List.filterMap_cons, hf]
        simp
      have h2 : foundNames rows owner (n :: rest) = insert n (foundNames rows owner rest) := by
        unfold foundNames
        rw [List.filter_cons, hf]
        simp
      have hiff : e.id ∈ resolvedIds rows owner rest ↔ n ∈ foundNames rows owner rest := by
        constructor
        · intro hmem
          obtain ⟨m, hm, e', he', hid⟩ := mem_resolvedIds.1 hmem
          obtain ⟨hin', -, hn'⟩ := findEnt_prop he'
          obtain ⟨hin, -, hn⟩ := findEnt_prop hf
          have hee : e' = e := List.inj_on_of_nodup_map hnd hin' hin hid
          rw [mem_foundNames]
          have hmn : m = n := by rw [← hn', hee, hn]
          rw [← hmn]
          refine ⟨hm, ?_⟩
          rw [hmn, hf]
          rfl
        · intro hmem
          obtain ⟨hm, -⟩ := mem_foundNames.1 hmem
          exact mem_resolvedIds.2 ⟨n, hm, e, hf, rfl⟩
      by_cases hmem : e.id ∈ resolvedIds rows owner rest
      · rw [h1, h2, Finset.insert_eq_self.2 hmem, Finset.insert_eq_self.2 (hiff.1 hmem), ih]
      · rw [h1, h2, Finset.card_insert_of_not_mem hmem,
          Finset.card_insert_of_not_mem (fun hc => hmem (hiff.2 hc)), ih]

/-- Every distinct requested name is either known or new. -/
theorem foundNames_card_add_newNames_card (rows : List Entity) (owner : Nat)
    (names : List String) :
    (foundNames rows owner names).card + (newNames rows owner names).card =
      names.toFinset.card := by
  unfold foundNames newNames
  rw [List.toFinset_filter, List.toFinset_filter]
  have h : Finset.filter (fun n => ((findEnt rows owner n).isNone = true)) names.toFinset =
      Finset.filter (fun n => ¬ ((findEnt rows owner n).isSome = true)) names.toFinset := by
    apply Finset.filter_congr
    intro m _
    cases findEnt rows owner m <;> simp
  rw [h]
  exact Finset.filter_card_add_filter_neg_card_eq_card _

/-- The reconciled association set has exactly one member per distinct
requested name. -/
theorem reconcile_length {owner : Nat} {names : List String} {t : EntTable} (h : t.WF) :
    (reconcile owner names t).1.length = names.dedup.length := by
  rw [← List.toFinset_card_of_nodup (reconcile_ids_nodup owner names t),
    reconcile_toFinset]
  have hdisj : Disjoint (resolvedIds t.rows owner names)
      (Finset.Ico t.nextId (t.nextId + (newNames t.rows owner names).card)) := by
    rw [Finset.disjoint_left]
    intro i hi hico
    obtain ⟨m, hm, e, he, hid⟩ := mem_resolvedIds.1 hi
    have hin := (findEnt_prop he).1
    have := h.1 e hin
    rw [Finset.mem_Ico] at hico
    omega
  rw [Finset.card_union_of_disjoint hdisj, card_resolvedIds h.2, Nat.card_Ico,
    Nat.add_sub_cancel_left, ← List.card_toFinset]
  exact foundNames_card_add_newNames_card t.rows owner names

/-! ### Sorting lemmas -/

theorem insDesc_perm {α κ : Type} [LinearOrder κ] (key : α → κ) (a : α) (l : List α) :
    (insDesc key a l).Perm (a :: l) := by
  induction l with
  | nil => exact List.Perm.refl _
  | cons b l ih =>
    unfold insDesc
    split
    · exact List.Perm.refl _
    · exact (List.Perm.cons b ih).trans (List.Perm.swap a b l)

theorem sortDesc_perm {α κ : Type} [LinearOrder κ] (key : α → κ) (l : List α) :
    (sortDesc key l).Perm l := by
  induction l with
  | nil => exact List.Perm.refl _
  | cons a l ih => exact (insDesc_perm key a _).trans (List.Perm.cons a ih)

theorem insDesc_pairwise {α κ : Type} [LinearOrder κ] {key : α → κ} {a : α} {l : List α}
    (h : l.Pairwise (fun x y => key y ≤ key x)) :
    (insDesc key a l).Pairwise (fun x y => key y ≤ key x) := by
  induction l with
  | nil => simp [insDesc]
  | cons b l ih =>
    unfold insDesc
    split
    next hle =>
      refine List.Pairwise.cons ?_ h
      intro x hx
      rcases List.mem_cons.1 hx with rfl | hx
      · exact hle
      · exact le_trans (List.rel_of_pairwise_cons h hx) hle
    next hle =>
      have hab : key a ≤ key b := le_of_not_le hle
      refine List.Pairwise.cons ?_ (ih (List.Pairwise.of_cons h))
      intro x hx
      have hx' := (insDesc_perm key a l).mem_iff.1 hx
      rcases List.mem_cons.1 hx' with rfl | hx'
      · exact hab
      · exact List.rel_of_pairwise_cons h hx'

/-- Insertion sort by descending key really sorts. -/
theorem sortDesc_pairwise {α κ : Type} [LinearOrder κ] (key : α → κ) (l : List α) :
    (sortDesc key l).Pairwise (fun x y => key y ≤ key x) := by
  induction l with
  | nil => simp [sortDesc]
  | cons a l ih => exact insDesc_pairwise ih

/-! ### List endpoint lemmas -/

theorem mem_recipeList_tagsFilter {db : DB} {uid : Nat} {s : String} {r : Recipe} :
    r ∈ recipeList db uid (some s) none ↔
      r ∈ db.recipes ∧ r.owner = uid ∧ ∃ i ∈ r.tags, i ∈ parseIds s := by
  unfold recipeList
  dsimp only
  rw [(sortDesc_perm _ _).mem_iff]
  simp only [List.mem_filter, List.any_eq_true, beq_iff_eq]
  constructor
  · rintro ⟨⟨hmem, hown⟩, hi⟩
    refine ⟨hmem, hown, ?_⟩
    obtain ⟨i, hi1, hi2⟩ := hi
    exact ⟨i, hi1, by simpa using hi2⟩
  · rintro ⟨hmem, hown, i, hi1, hi2⟩
    exact ⟨⟨hmem, hown⟩, ⟨i, hi1, by simpa using hi2⟩⟩

theorem mem_recipeList_ingsFilter {db : DB} {uid : Nat} {s : String} {r : Recipe} :
    r ∈ recipeList db uid none (some s) ↔
      r ∈ db.recipes ∧ r.owner = uid ∧ ∃ i ∈ r.ingredients, i ∈ parseIds s := by
  unfold recipeList
  dsimp only
  rw [(sortDesc_perm _ _).mem_iff]
  simp only [List.mem_filter, List.any_eq_true, beq_iff_eq]
  constructor
  · rintro ⟨⟨hmem, hown⟩, hi⟩
    refine ⟨hmem, hown, ?_⟩
    obtain ⟨i, hi1, hi2⟩ := hi
    exact ⟨i, hi1, by simpa using hi2⟩
  · rintro ⟨hmem, hown, i, hi1, hi2⟩
    exact ⟨⟨hmem, hown⟩, ⟨i, hi1, by simpa using hi2⟩⟩

theorem recipeList_nodup (db : DB) (uid : Nat) (tq iq : Option String)
    (h : db.recipes.Nodup) : (recipeList db uid tq iq).Nodup := by
  unfold recipeList
  apply ((sortDesc_perm _ _).nodup_iff).2
  cases tq <;> cases iq <;> dsimp only
  · exact h.filter _
  · exact (h.filter _).filter _
  · exact (h.filter _).filter _
  · exact ((h.filter _).filter _).filter _

theorem mem_entListT_assigned {t : EntTable} {assoc : Recipe → List Nat}
    {recipes : List Recipe} {uid : Nat} {e : Entity} :
    e ∈ entListT t assoc recipes uid true ↔
      e ∈ t.rows ∧ e.owner = uid ∧ ∃ r ∈ recipes, e.id ∈ assoc r := by
  unfold entListT
  dsimp only
  rw [(sortDesc_perm _ _).mem_iff]
  simp only [List.mem_filter, List.any_eq_true, beq_iff_eq]
  constructor
  · rintro ⟨⟨hmem, hown⟩, hr⟩
    obtain ⟨r, hr1, hr2⟩ := hr
    exact ⟨hmem, hown, r, hr1, by simpa using hr2⟩
  · rintro ⟨hmem, hown, r, hr1, hr2⟩
    exact ⟨⟨hmem, hown⟩, ⟨r, hr1, by simpa using hr2⟩⟩

theorem entListT_nodup (t : EntTable) (assoc : Recipe → List Nat)
    (recipes : List Recipe) (uid : Nat) (b : Bool)
    (h : t.rows.Nodup) : (entListT t assoc recipes uid b).Nodup := by
  unfold entListT
  apply ((sortDesc_perm _ _).nodup_iff).2
  cases b <;> dsimp only
  · exact h.filter _
  · exact (h.filter _).filter _

/-! ### Owner-scoped lookup and write-back lemmas -/

theorem findRecipe_found {db : DB} {uid rid : Nat} {r : Recipe}
    (h : findRecipe db uid rid = some r) :
    r ∈ db.recipes ∧ r.id = rid ∧ r.owner = uid := by
  unfold findRecipe at h
  have hm := List.mem_of_find?_eq_some h
  have hp := List.find?_some h
  simp only [Bool.and_eq_true, beq_iff_eq] at hp
  exact ⟨hm, hp.1, hp.2⟩

theorem findRecipe_none_of_other {db : DB} {uid rid : Nat}
    (h : ∀ r ∈ db.recipes, r.id = rid → r.owner ≠ uid) :
    findRecipe db uid rid = none := by
  unfold findRecipe
  rw [List.find?_eq_none]
  intro r hr hp
  simp only [Bool.and_eq_true, beq_iff_eq] at hp
  exact h r hr hp.1 hp.2

theorem findEntOwned_none_of_other {t : EntTable} {uid eid : Nat}
    (h : ∀ e ∈ t.rows, e.id = eid → e.owner ≠ uid) :
    findEntOwned t uid eid = none := by
  unfold findEntOwned
  rw [List.find?_eq_none]
  intro e he hp
  simp only [Bool.and_eq_true, beq_iff_eq] at hp
  exact h e he hp.1 hp.2

theorem mem_setRecipe {rs : List Recipe} {r' x : Recipe} (hx : x ∈ setRecipe rs r') :
    x = r' ∨ x ∈ rs := by
  unfold setRecipe at hx
  rcases List.mem_map.1 hx with ⟨y, hy, hxy⟩
  by_cases h : (y.id == r'.id) = true
  · rw [if_pos h] at hxy
    exact Or.inl hxy.symm
  · rw [if_neg h] at hxy
    exact Or.inr (hxy ▸ hy)

/-- With duplicate-free recipe ids, writing back the updated row makes
the owner-scoped lookup return exactly the updated row. -/
theorem find?_setRecipe {rs : List Recipe} {r r' : Recipe} {uid rid : Nat}
    (hnd : (rs.map Recipe.id).Nodup)
    (hfind : rs.find? (fun x => x.id == rid && x.owner == uid) = some r)
    (hid : r'.id = r.id) (hown : r'.owner = r.owner) :
    (setRecipe rs r').find? (fun x => x.id == rid && x.owner == uid) = some r' := by
  have hpr := List.find?_some hfind
  simp only [Bool.and_eq_true, beq_iff_eq] at hpr
  induction rs with
  | nil => exact Option.noConfusion hfind
  | cons a as ih =>
    rw [List.map_cons] at hnd
    by_cases hpa : (a.id == rid && a.owner == uid) = true
    · rw [List.find?_cons_of_pos (p := fun x => x.id == rid && x.owner == uid) as hpa] at hfind
      injection hfind with har
      unfold setRecipe
      rw [List.map_cons]
      have hcond : (a.id == r'.id) = true := by
        rw [beq_iff_eq, har, hid]
      rw [if_pos hcond]
      apply List.find?_cons_of_pos
      simp only [Bool.and_eq_true, beq_iff_eq]
      rw [hid, hown]
      exact hpr
    · rw [List.find?_cons_of_neg (p := fun x => x.id == rid && x.owner == uid) as hpa] at hfind
      have hrin : r ∈ as := List.mem_of_find?_eq_some hfind
      have haid : a.id ≠ rid := by
        intro hcontra
        have hmem : a.id ∈ as.map Recipe.id :=
          List.mem_map.2 ⟨r, hrin, by rw [hpr.1, hcontra]⟩
        exact (List.nodup_cons.1 hnd).1 hmem
      unfold setRecipe
      rw [List.map_cons]
      have hcond : ¬ ((a.id == r'.id) = true) := by
        simp only [beq_iff_eq]
        rw [hid, hpr.1]
        exact haid
      rw [if_neg hcond]
      rw [List.find?_cons_of_neg (p := fun x : Recipe => x.id == rid && x.owner == uid) _ hpa]
      exact ih (List.nodup_cons.1 hnd).2 hfind

/-! ### Operation shape lemmas -/

theorem recipeUpdate_eq_ok {db : DB} {uid rid : Nat} {p : Payload} {r : Recipe}
    {tgs ings : Option (List String)}
    (hfr : findRecipe db uid rid = some r)
    (hvt : validateField p.tags = some tgs)
    (hvi : validateField p.ingredients = some ings) :
    recipeUpdate db uid rid p = Except.ok (recipeUpdateCore db r p tgs ings) := by
  unfold recipeUpdate
  rw [hfr, hvt, hvi]

theorem recipeUpdate_notFound {db : DB} {uid rid : Nat} {p : Payload}
    (hfr : findRecipe db uid rid = none) :
    recipeUpdate db uid rid p = Except.error ApiError.notFound := by
  unfold recipeUpdate
  rw [hfr]

theorem recipeUpdate_badTags {db : DB} {uid rid : Nat} {p : Payload} {r : Recipe}
    (hfr : findRecipe db uid rid = some r)
    (hvt : validateField p.tags = none) :
    recipeUpdate db uid rid p = Except.error ApiError.validationError := by
  unfold recipeUpdate
  rw [hfr, hvt]

theorem recipeUpdate_badIngs {db : DB} {uid rid : Nat} {p : Payload} {r : Recipe}
    {tgs : Option (List String)}
    (hfr : findRecipe db uid rid = some r)
    (hvt : validateField p.tags = some tgs)
    (hvi : validateField p.ingredients = none) :
    recipeUpdate db uid rid p = Except.error ApiError.validationError := by
  unfold recipeUpdate
  rw [hfr, hvt, hvi]

theorem recipeDelete_notFound {db : DB} {uid rid : Nat}
    (hfr : findRecipe db uid rid = none) :
    recipeDelete db uid rid = Except.error ApiError.notFound := by
  unfold recipeDelete
  rw [hfr]

theorem recipeDetail_notFound {db : DB} {uid rid : Nat}
    (hfr : findRecipe db uid rid = none) :
    recipeDetail db uid rid = Except.error ApiError.notFound := by
  unfold recipeDetail
  rw [hfr]

theorem uploadImage_notFound {db : DB} {uid rid : Nat} {f : FileVal}
    (hfr : findRecipe db uid rid = none) :
    uploadImage db uid rid f = Except.error ApiError.notFound := by
  unfold uploadImage
  rw [hfr]

theorem uploadImage_badFile {db : DB} {uid rid : Nat} {r : Recipe}
    (hfr : findRecipe db uid rid = some r) :
    uploadImage db uid rid FileVal.badFile = Except.error ApiError.validationError := by
  unfold uploadImage
  rw [hfr]

theorem applyOp_error {db : DB} {op : Op} {e : ApiError}
    (h : opResult db op = Except.error e) : applyOp db op = db := by
  unfold applyOp
  rw [h]

theorem applyOp_ok {db db' : DB} {op : Op}
    (h : opResult db op = Except.ok db') : applyOp db op = db' := by
  unfold applyOp
  rw [h]

/-! ### Ownership facts about the reconciled set -/

theorem reconcile_sub {owner : Nat} {ns : List String} {t : EntTable} :
    ∀ e ∈ t.rows, e ∈ (reconcile owner ns t).2.rows := by
  intro e he
  obtain ⟨ext, hrows, -, -⟩ := reconcile_ext owner ns t
  rw [hrows]
  exact List.mem_append_left _ he

/-- Every id in a reconciled association set is the id of a row of the
final table owned by the requesting owner. -/
theorem reconcile_ids_owned {owner : Nat} {ns : List String} {t : EntTable} {i : Nat}
    (hi : i ∈ (reconcile owner ns t).1) :
    ∃ e ∈ (reconcile owner ns t).2.rows, e.id = i ∧ e.owner = owner := by
  obtain ⟨n, hn, e, he, hid⟩ := (reconcile_mem owner ns t i).1 hi
  obtain ⟨hin, hown, -⟩ := findEnt_prop he
  exact ⟨e, hin, hid, hown⟩

theorem recipeUpdate_ok_elim {db : DB} {uid rid : Nat} {p : Payload} {db' : DB}
    (h : recipeUpdate db uid rid p = Except.ok db') :
    ∃ r tgs ings, findRecipe db uid rid = some r ∧
      validateField p.tags = some tgs ∧ validateField p.ingredients = some ings ∧
      db' = recipeUpdateCore db r p tgs ings := by
  cases hfr : findRecipe db uid rid with
  | none =>
    rw [recipeUpdate_notFound hfr] at h
    exact Except.noConfusion h
  | some r =>
    cases hvt : validateField p.tags with
    | none =>
      rw [recipeUpdate_badTags hfr hvt] at h
      exact Except.noConfusion h
    | some tgs =>
      cases hvi : validateField p.ingredients with
      | none =>
        rw [recipeUpdate_badIngs hfr hvt hvi] at h
        exact Except.noConfusion h
      | some ings =>
        rw [recipeUpdate_eq_ok hfr hvt hvi] at h
        injection h with h
        exact ⟨r, tgs, ings, rfl, rfl, rfl, h.symm⟩

theorem recipeCreate_eq_ok {db : DB} {uid : Nat} {p : Payload} {title : String}
    {tm pr : Nat} {tgs ings : Option (List String)}
    (ht : p.title = some title) (htm : p.timeMinutes = some tm)
    (hpr : p.price = some pr)
    (hvt : validateField p.tags = some tgs)
    (hvi : validateField p.ingredients = some ings) :
    recipeCreate db uid p = Except.ok (recipeCreateCore db uid p title tm pr tgs ings) := by
  unfold recipeCreate
  rw [ht, htm, hpr, hvt, hvi]

theorem recipeCreate_noTitle {db : DB} {uid : Nat} {p : Payload}
    (ht : p.title = none) :
    recipeCreate db uid p = Except.error ApiError.validationError := by
  unfold recipeCreate
  rw [ht]

theorem recipeCreate_noTime {db : DB} {uid : Nat} {p : Payload} {title : String}
    (ht : p.title = some title) (htm : p.timeMinutes = none) :
    recipeCreate db uid p = Except.error ApiError.validationError := by
  unfold recipeCreate
  rw [ht, htm]

theorem recipeCreate_noPrice {db : DB} {uid : Nat} {p : Payload} {title : String}
    {tm : Nat} (ht : p.title = some title) (htm : p.timeMinutes = some tm)
    (hpr : p.price = none) :
    recipeCreate db uid p = Except.error ApiError.validationError := by
  unfold recipeCreate
  rw [ht, htm, hpr]

theorem recipeCreate_badTags {db : DB} {uid : Nat} {p : Payload} {title : String}
    {tm pr : Nat} (ht : p.title = some title) (htm : p.timeMinutes = some tm)
    (hpr : p.price = some pr) (hvt : validateField p.tags = none) :
    recipeCreate db uid p = Except.error ApiError.validationError := by
  unfold recipeCreate
  rw [ht, htm, hpr, hvt]

theorem recipeCreate_badIngs {db : DB} {uid : Nat} {p : Payload} {title : String}
    {tm pr : Nat} {tgs : Option (List String)}
    (ht : p.title = some title) (htm : p.timeMinutes = some tm)
    (hpr : p.price = some pr) (hvt : validateField p.tags = some tgs)
    (hvi : validateField p.ingredients = none) :
    recipeCreate db uid p = Except.error ApiError.validationError := by
  unfold recipeCreate
  rw [ht, htm, hpr, hvt, hvi]

theorem recipeCreate_ok_elim {db : DB} {uid : Nat} {p : Payload} {db' : DB}
    (h : recipeCreate db uid p = Except.ok db') :
    ∃ title tm pr tgs ings, p.title = some title ∧ p.timeMinutes = some tm ∧
      p.price = some pr ∧ validateField p.tags = some tgs ∧
      validateField p.ingredients = some ings ∧
      db' = recipeCreateCore db uid p title tm pr tgs ings := by
  cases ht : p.title with
  | none =>
    rw [recipeCreate_noTitle ht] at h
    exact Except.noConfusion h
  | some title =>
    cases htm : p.timeMinutes with
    | none =>
      rw [recipeCreate_noTime ht htm] at h
      exact Except.noConfusion h
    | some tm =>
      cases hpr : p.price with
      | none =>
        rw [recipeCreate_noPrice ht htm hpr] at h
        exact Except.noConfusion h
      | some pr =>
        cases hvt : validateField p.tags with
        | none =>
          rw [recipeCreate_badTags ht htm hpr hvt] at h
          exact Except.noConfusion h
        | some tgs =>
          cases hvi : validateField p.ingredients with
          | none =>
            rw [recipeCreate_badIngs ht htm hpr hvt hvi] at h
            exact Except.noConfusion h
          | some ings =>
            rw [recipeCreate_eq_ok ht htm hpr hvt hvi] at h
            injection h with h
            exact ⟨title, tm, pr, tgs, ings, rfl, rfl, rfl, rfl, rfl, h.symm⟩

theorem recipeDelete_eq_ok {db : DB} {uid rid : Nat} {r : Recipe}
    (hfr : findRecipe db uid rid = some r) :
    recipeDelete db uid rid = Except.ok
      { db with recipes := db.recipes.filter (fun x => !(x.id == rid && x.owner == uid)) } := by
  unfold recipeDelete
  rw [hfr]

theorem recipeDelete_ok_elim {db : DB} {uid rid : Nat} {db' : DB}
    (h : recipeDelete db uid rid = Except.ok db') :
    db' = { db with recipes := db.recipes.filter (fun x => !(x.id == rid && x.owner == uid)) } := by
  cases hfr : findRecipe db uid rid with
  | none =>
    rw [recipeDelete_notFound hfr] at h
    exact Except.noConfusion h
  | some r =>
    rw [recipeDelete_eq_ok hfr] at h
    injection h with h
    exact h.symm

theorem uploadImage_eq_ok {db : DB} {uid rid : Nat} {r : Recipe} {ref : String}
    (hfr : findRecipe db uid rid = some r) :
    uploadImage db uid rid (FileVal.imageFile ref) =
      Except.ok { db with recipes := setRecipe db.recipes { r with image := some ref } } := by
  unfold uploadImage
  rw [hfr]

theorem uploadImage_ok_elim {db : DB} {uid rid : Nat} {f : FileVal} {db' : DB}
    (h : uploadImage db uid rid f = Except.ok db') :
    ∃ r ref, findRecipe db uid rid = some r ∧ f = FileVal.imageFile ref ∧
      db' = { db with recipes := setRecipe db.recipes { r with image := some ref } } := by
  cases hfr : findRecipe db uid rid with
  | none =>
    rw [uploadImage_notFound hfr] at h
    exact Except.noConfusion h
  | some r =>
    cases f with
    | badFile =>
      rw [uploadImage_badFile hfr] at h
      exact Except.noConfusion h
    | imageFile ref =>
      rw [uploadImage_eq_ok hfr] at h
      injection h with h
      exact ⟨r, ref, rfl, rfl, h.symm⟩

theorem entCreateT_ok_elim {t : EntTable} {uid : Nat} {n : String} {t' : EntTable}
    (h : entCreateT t uid n = Except.ok t') :
    n.length ≤ maxNameLength ∧ t' = ⟨t.rows ++ [⟨t.nextId, uid, n⟩], t.nextId + 1⟩ := by
  unfold entCreateT at h
  by_cases hlen : n.length ≤ maxNameLength
  · rw [if_pos hlen] at h
    injection h with h
    exact ⟨hlen, h.symm⟩
  · rw [if_neg hlen] at h
    exact Except.noConfusion h

theorem entUpdateT_ok_elim {t : EntTable} {uid eid : Nat} {n : String} {t' : EntTable}
    (h : entUpdateT t uid eid n = Except.ok t') :
    t' = ⟨t.rows.map (fun e => if e.id == eid && e.owner == uid then { e with name := n } else e),
          t.nextId⟩ := by
  unfold entUpdateT at h
  cases hfe : findEntOwned t uid eid with
  | none =>
    rw [hfe] at h
    exact Except.noConfusion h
  | some e =>
    rw [hfe] at h
    by_cases hlen : n.length ≤ maxNameLength
    · rw [if_pos hlen] at h
      injection h with h
      exact h.symm
    · rw [if_neg hlen] at h
      exact Except.noConfusion h

theorem entDeleteT_ok_elim {t : EntTable} {uid eid : Nat} {t' : EntTable}
    (h : entDeleteT t uid eid = Except.ok t') :
    t' = ⟨t.rows.filter (fun e => !(e.id == eid && e.owner == uid)), t.nextId⟩ := by
  unfold entDeleteT at h
  cases hfe : findEntOwned t uid eid with
  | none =>
    rw [hfe] at h
    exact Except.noConfusion h
  | some e =>
    rw [hfe] at h
    injection h with h
    exact h.symm

/-! ### The cross-owner invariant -/

/-- Claim C4's invariant: every association id of every recipe references
a row of the matching store owned by the recipe's owner. -/
def assocOwned (db : DB) : Prop :=
  ∀ r ∈ db.recipes,
    (∀ i ∈ r.tags, ∃ e ∈ db.tags.rows, e.id = i ∧ e.owner = r.owner) ∧
    (∀ i ∈ r.ingredients, ∃ e ∈ db.ingredients.rows, e.id = i ∧ e.owner = r.owner)

instance (db : DB) : Decidable (assocOwned db) := by
  unfold assocOwned
  infer_instance

theorem applyAssocField_rows_sub {owner : Nat} {cur : List Nat}
    {field : Option (List String)} {t : EntTable} :
    ∀ e ∈ t.rows, e ∈ (applyAssocField owner cur field t).2.rows := by
  cases field with
  | none => exact fun e he => he
  | some ns => exact reconcile_sub

theorem applyAssocField_ids {owner : Nat} {cur : List Nat}
    {field : Option (List String)} {t : EntTable} {i : Nat}
    (hi : i ∈ (applyAssocField owner cur field t).1) :
    (field = none ∧ i ∈ cur) ∨
      ∃ e ∈ (applyAssocField owner cur field t).2.rows, e.id = i ∧ e.owner = owner := by
  cases field with
  | none => exact Or.inl ⟨rfl, hi⟩
  | some ns => exact Or.inr (reconcile_ids_owned hi)

theorem assocOwned_recipeUpdateCore {db : DB} {r : Recipe} {p : Payload}
    {tgs ings : Option (List String)} (h : assocOwned db) (hr : r ∈ db.recipes) :
    assocOwned (recipeUpdateCore db r p tgs ings) := by
  intro x hx
  rcases mem_setRecipe hx with rfl | hxin
  · constructor
    · intro i hi
      rcases applyAssocField_ids hi with ⟨-, hicur⟩ | ⟨e, he, hid, hown⟩
      · obtain ⟨e, he, hid, hown⟩ := (h r hr).1 i hicur
        exact ⟨e, applyAssocField_rows_sub e he, hid, hown⟩
      · exact ⟨e, he, hid, hown⟩
    · intro i hi
      rcases applyAssocField_ids hi with ⟨-, hicur⟩ | ⟨e, he, hid, hown⟩
      · obtain ⟨e, he, hid, hown⟩ := (h r hr).2 i hicur
        exact ⟨e, applyAssocField_rows_sub e he, hid, hown⟩
      · exact ⟨e, he, hid, hown⟩
  · constructor
    · intro i hi
      obtain ⟨e, he, hid, hown⟩ := (h x hxin).1 i hi
      exact ⟨e, applyAssocField_rows_sub e he, hid, hown⟩
    · intro i hi
      obtain ⟨e, he, hid, hown⟩ := (h x hxin).2 i hi
      exact ⟨e, applyAssocField_rows_sub e he, hid, hown⟩

theorem assocOwned_recipeCreateCore {db : DB} {uid : Nat} {p : Payload}
    {title : String} {tm pr : Nat} {tgs ings : Option (List String)}
    (h : assocOwned db) :
    assocOwned (recipeCreateCore db uid p title tm pr tgs ings) := by
  intro x hx
  rcases List.mem_append.1 hx with hxin | hxnew
  · constructor
    · intro i hi
      obtain ⟨e, he, hid, hown⟩ := (h x hxin).1 i hi
      exact ⟨e, applyAssocField_rows_sub e he, hid, hown⟩
    · intro i hi
      obtain ⟨e, he, hid, hown⟩ := (h x hxin).2 i hi
      exact ⟨e, applyAssocField_rows_sub e he, hid, hown⟩
  · rcases List.mem_singleton.1 hxnew with rfl
    constructor
    · intro i hi
      rcases applyAssocField_ids hi with ⟨-, hicur⟩ | ⟨e, he, hid, hown⟩
      · cases hicur
      · exact ⟨e, he, hid, hown⟩
    · intro i hi
      rcases applyAssocField_ids hi with ⟨-, hicur⟩ | ⟨e, he, hid, hown⟩
      · cases hicur
      · exact ⟨e, he, hid, hown⟩

theorem tagCreate_ok_elim {db : DB} {uid : Nat} {n : String} {db' : DB}
    (h : tagCreate db uid n = Except.ok db') :
    ∃ t', entCreateT db.tags uid n = Except.ok t' ∧ db' = { db with tags := t' } := by
  unfold tagCreate at h
  cases he : entCreateT db.tags uid n with
  | error e =>
    rw [he] at h
    exact Except.noConfusion h
  | ok t' =>
    rw [he] at h
    injection h with h
    exact ⟨t', rfl, h.symm⟩

theorem tagUpdate_ok_elim {db : DB} {uid eid : Nat} {n : String} {db' : DB}
    (h : tagUpdate db uid eid n = Except.ok db') :
    ∃ t', entUpdateT db.tags uid eid n = Except.ok t' ∧ db' = { db with tags := t' } := by
  unfold tagUpdate at h
  cases he : entUpdateT db.tags uid eid n with
  | error e =>
    rw [he] at h
    exact Except.noConfusion h
  | ok t' =>
    rw [he] at h
    injection h with h
    exact ⟨t', rfl, h.symm⟩

theorem tagDelete_ok_elim {db : DB} {uid eid : Nat} {db' : DB}
    (h : tagDelete db uid eid = Except.ok db') :
    ∃ t', entDeleteT db.tags uid eid = Except.ok t' ∧
      db' = { db with tags := t', recipes := detachTag db.recipes eid } := by
  unfold tagDelete at h
  cases he : entDeleteT db.tags uid eid with
  | error e =>
    rw [he] at h
    exact Except.noConfusion h
  | ok t' =>
    rw [he] at h
    injection h with h
    exact ⟨t', rfl, h.symm⟩

theorem ingredientCreate_ok_elim {db : DB} {uid : Nat} {n : String} {db' : DB}
    (h : ingredientCreate db uid n = Except.ok db') :
    ∃ t', entCreateT db.ingredients uid n = Except.ok t' ∧
      db' = { db with ingredients := t' } := by
  unfold ingredientCreate at h
  cases he : entCreateT db.ingredients uid n with
  | error e =>
    rw [he] at h
    exact Except.noConfusion h
  | ok t' =>
    rw [he] at h
    injection h with h
    exact ⟨t', rfl, h.symm⟩

theorem ingredientUpdate_ok_elim {db : DB} {uid eid : Nat} {n : String} {db' : DB}
    (h : ingredientUpdate db uid eid n = Except.ok db') :
    ∃ t', entUpdateT db.ingredients uid eid n = Except.ok t' ∧
      db' = { db with ingredients := t' } := by
  unfold ingredientUpdate at h
  cases he : entUpdateT db.ingredients uid eid n with
  | error e =>
    rw [he] at h
    exact Except.noConfusion h
  | ok t' =>
    rw [he] at h
    injection h with h
    exact ⟨t', rfl, h.symm⟩

theorem ingredientDelete_ok_elim {db : DB} {uid eid : Nat} {db' : DB}
    (h : ingredientDelete db uid eid = Except.ok db') :
    ∃ t', entDeleteT db.ingredients uid eid = Except.ok t' ∧
      db' = { db with ingredients := t', recipes := detachIngredient db.recipes eid } := by
  unfold ingredientDelete at h
  cases he : entDeleteT db.ingredients uid eid with
  | error e =>
    rw [he] at h
    exact Except.noConfusion h
  | ok t' =>
    rw [he] at h
    injection h with h
    exact ⟨t', rfl, h.symm⟩

/-- A renamed row keeps its id and owner. -/
theorem entRename_keeps {rows : List Entity} {uid eid : Nat} {n : String} :
    ∀ e ∈ rows, ∃ e2 ∈ rows.map
      (fun e => if e.id == eid && e.owner == uid then { e with name := n } else e),
      e2.id = e.id ∧ e2.owner = e.owner := by
  intro e he
  refine ⟨if e.id == eid && e.owner == uid then { e with name := n } else e,
    List.mem_map.2 ⟨e, he, rfl⟩, ?_, ?_⟩
  · by_cases hcond : (e.id == eid && e.owner == uid) = true
    · rw [if_pos hcond]
    · rw [if_neg hcond]
  · by_cases hcond : (e.id == eid && e.owner == uid) = true
    · rw [if_pos hcond]
    · rw [if_neg hcond]

/-- Every operation of the surface preserves the cross-owner invariant. -/
theorem assocOwned_applyOp (db : DB) (op : Op) (h : assocOwned db) :
    assocOwned (applyOp db op) := by
  cases hres : opResult db op with
  | error e =>
    rw [applyOp_error hres]
    exact h
  | ok db' =>
    rw [applyOp_ok hres]
    cases op with
    | rCreate uid p =>
      obtain ⟨title, tm, pr, tgs, ings, -, -, -, -, -, rfl⟩ := recipeCreate_ok_elim hres
      exact assocOwned_recipeCreateCore h
    | rUpdate uid rid p =>
      obtain ⟨r, tgs, ings, hfr, -, -, rfl⟩ := recipeUpdate_ok_elim hres
      exact assocOwned_recipeUpdateCore h (findRecipe_found hfr).1
    | rDelete uid rid =>
      obtain rfl := recipeDelete_ok_elim hres
      intro x hx
      exact h x (List.mem_of_mem_filter hx)
    | rImage uid rid f =>
      obtain ⟨r, ref, hfr, -, rfl⟩ := uploadImage_ok_elim hres
      intro x hx
      rcases mem_setRecipe hx with rfl | hxin
      · exact h r (findRecipe_found hfr).1
      · exact h x hxin
    | tCreate uid n =>
      obtain ⟨t', he, rfl⟩ := tagCreate_ok_elim hres
      obtain ⟨-, rfl⟩ := entCreateT_ok_elim he
      intro x hx
      obtain ⟨htags, hings⟩ := h x hx
      refine ⟨?_, hings⟩
      intro i hi
      obtain ⟨e, hein, hid, hown⟩ := htags i hi
      exact ⟨e, List.mem_append_left _ hein, hid, hown⟩
    | tUpdate uid eid n =>
      obtain ⟨t', he, rfl⟩ := tagUpdate_ok_elim hres
      obtain rfl := entUpdateT_ok_elim he
      intro x hx
      obtain ⟨htags, hings⟩ := h x hx
      refine ⟨?_, hings⟩
      intro i hi
      obtain ⟨e, hein, hid, hown⟩ := htags i hi
      obtain ⟨e2, he2, hid2, hown2⟩ := entRename_keeps e hein
      exact ⟨e2, he2, hid2.trans hid, hown2.trans hown⟩
    | tDelete uid eid =>
      obtain ⟨t', he, rfl⟩ := tagDelete_ok_elim hres
      obtain rfl := entDeleteT_ok_elim he
      intro x hx
      obtain ⟨y, hy, rfl⟩ := List.mem_map.1 hx
      obtain ⟨htags, hings⟩ := h y hy
      constructor
      · intro i hi
        have hi' := List.mem_filter.1 hi
        have hine : i ≠ eid := by simpa using hi'.2
        obtain ⟨e, hein, hid, hown⟩ := htags i hi'.1
        have hbe : (e.id == eid) = false := by
          rw [beq_eq_false_iff_ne, hid]
          exact hine
        refine ⟨e, ?_, hid, hown⟩
        apply List.mem_filter.2
        refine ⟨hein, ?_⟩
        simp [hbe]
      · intro i hi
        obtain ⟨e, hein, hid, hown⟩ := hings i hi
        exact ⟨e, hein, hid, hown⟩
    | iCreate uid n =>
      obtain ⟨t', he, rfl⟩ := ingredientCreate_ok_elim hres
      obtain ⟨-, rfl⟩ := entCreateT_ok_elim he
      intro x hx
      obtain ⟨htags, hings⟩ := h x hx
      refine ⟨htags, ?_⟩
      intro i hi
      obtain ⟨e, hein, hid, hown⟩ := hings i hi
      exact ⟨e, List.mem_append_left _ hein, hid, hown⟩
    | iUpdate uid eid n =>
      obtain ⟨t', he, rfl⟩ := ingredientUpdate_ok_elim hres
      obtain rfl := entUpdateT_ok_elim he
      intro x hx
      obtain ⟨htags, hings⟩ := h x hx
      refine ⟨htags, ?_⟩
      intro i hi
      obtain ⟨e, hein, hid, hown⟩ := hings i hi
      obtain ⟨e2, he2, hid2, hown2⟩ := entRename_keeps e hein
      exact ⟨e2, he2, hid2.trans hid, hown2.trans hown⟩
    | iDelete uid eid =>
      obtain ⟨t', he, rfl⟩ := ingredientDelete_ok_elim hres
      obtain rfl := entDeleteT_ok_elim he
      intro x hx
      obtain ⟨y, hy, rfl⟩ := List.mem_map.1 hx
      obtain ⟨htags, hings⟩ := h y hy
      constructor
      · intro i hi
        obtain ⟨e, hein, hid, hown⟩ := htags i hi
        exact ⟨e, hein, hid, hown⟩
      · intro i hi
        have hi' := List.mem_filter.1 hi
        have hine : i ≠ eid := by simpa using hi'.2
        obtain ⟨e, hein, hid, hown⟩ := hings i hi'.1
        have hbe : (e.id == eid) = false := by
          rw [beq_eq_false_iff_ne, hid]
          exact hine
        refine ⟨e, ?_, hid, hown⟩
        apply List.mem_filter.2
        refine ⟨hein, ?_⟩
        simp [hbe]

/-! ### Concrete sample data for witnesses -/

def sampleTagTable : EntTable := ⟨[⟨1, 7, "Vegan"⟩], 2⟩

def sampleIngTable : EntTable := ⟨[⟨1, 7, "Salt"⟩], 2⟩

def sampleRecipe : Recipe := ⟨1, 7, "Cake", 10, 5, "d", "l", none, [1], []⟩

def sampleDB : DB := ⟨sampleTagTable, sampleIngTable, [sampleRecipe], 2⟩

/-! ### Claim theorems -/

/-- Claim C2: for every requested name list, reconciliation produces an
association set with exactly as many members as the set of distinct names
(no duplicate rows for one owner from a single request), and an already
existing name is reused rather than duplicated. -/
theorem claim2_no_duplicate_rows (owner : Nat) (L : List String) (t : EntTable)
    (hwf : t.WF) :
    (reconcile owner L t).1.length = L.dedup.length ∧
    (reconcile owner L t).1.Nodup ∧
    (∀ n e, n ∈ L → findEnt t.rows owner n = some e →
      e.id ∈ (reconcile owner L t).1) := by
  refine ⟨reconcile_length hwf, reconcile_ids_nodup owner L t, ?_⟩
  intro n e hn he
  apply (reconcile_mem owner L t e.id).2
  refine ⟨n, hn, e, ?_, rfl⟩
  obtain ⟨ext, hrows, -, -⟩ := reconcile_ext owner L t
  rw [hrows]
  exact findEnt_append_some he

theorem claim2_witness :
    sampleTagTable.WF ∧
    ((reconcile 7 ["Vegan", "Fresh", "Fresh"] sampleTagTable).1.length =
        (["Vegan", "Fresh", "Fresh"] : List String).dedup.length ∧
      (reconcile 7 ["Vegan", "Fresh", "Fresh"] sampleTagTable).1.Nodup ∧
      (∀ n e, n ∈ (["Vegan", "Fresh", "Fresh"] : List String) →
        findEnt sampleTagTable.rows 7 n = some e →
        e.id ∈ (reconcile 7 ["Vegan", "Fresh", "Fresh"] sampleTagTable).1)) :=
  ⟨by decide, claim2_no_duplicate_rows 7 ["Vegan", "Fresh", "Fresh"] sampleTagTable (by decide)⟩

/-- Claim C3: reconciling the same name list twice yields the identical
association set and leaves the store untouched the second time
(idempotence), and permuting the order of the names does not change the
resulting association id set. -/
theorem claim3_idempotent_order_insensitive (owner : Nat) (L L' : List String)
    (t : EntTable) (hperm : L.Perm L') :
    reconcile owner L (reconcile owner L t).2 = reconcile owner L t ∧
    (reconcile owner L' t).1.toFinset = (reconcile owner L t).1.toFinset :=
  ⟨reconcile_stable owner L t, reconcile_perm_toFinset owner t hperm⟩

theorem claim3_witness :
    (["Vegan", "Fresh"] : List String).Perm ["Fresh", "Vegan"] ∧
    (reconcile 7 ["Vegan", "Fresh"] (reconcile 7 ["Vegan", "Fresh"] sampleTagTable).2 =
        reconcile 7 ["Vegan", "Fresh"] sampleTagTable ∧
      (reconcile 7 ["Fresh", "Vegan"] sampleTagTable).1.toFinset =
        (reconcile 7 ["Vegan", "Fresh"] sampleTagTable).1.toFinset) :=
  ⟨by decide, claim3_idempotent_order_insensitive 7 ["Vegan", "Fresh"] ["Fresh", "Vegan"]
    sampleTagTable (by decide)⟩

/-- Claim C4: every operation preserves the invariant that a recipe's tag
and ingredient sets only reference rows owned by the recipe's owner; and
reconciling for one owner never associates another owner's identically
named row. -/
theorem claim4_owner_invariant (db : DB) (op : Op) (owner : Nat) (ns : List String)
    (t : EntTable) (e : Entity)
    (h : assocOwned db) (hwf : t.WF) (he : e ∈ t.rows) (hne : e.owner ≠ owner) :
    assocOwned (applyOp db op) ∧ e.id ∉ (reconcile owner ns t).1 := by
  refine ⟨assocOwned_applyOp db op h, ?_⟩
  intro hc
  obtain ⟨e', he', hid, hown⟩ := reconcile_ids_owned hc
  have hwf' := reconcile_WF owner ns hwf
  have hee : e = e' :=
    List.inj_on_of_nodup_map hwf'.2 (reconcile_sub e he) he' (by rw [hid])
  apply hne
  rw [hee]
  exact hown

theorem claim4_witness :
    (assocOwned sampleDB ∧ sampleTagTable.WF ∧
      (⟨1, 7, "Vegan"⟩ : Entity) ∈ sampleTagTable.rows ∧
      (⟨1, 7, "Vegan"⟩ : Entity).owner ≠ 9) ∧
    (assocOwned (applyOp sampleDB (Op.tCreate 9 "Vegan")) ∧
      (⟨1, 7, "Vegan"⟩ : Entity).id ∉ (reconcile 9 ["Vegan"] sampleTagTable).1) :=
  ⟨⟨by decide, by decide, by decide, by decide⟩,
    claim4_owner_invariant sampleDB (Op.tCreate 9 "Vegan") 9 ["Vegan"] sampleTagTable
      ⟨1, 7, "Vegan"⟩ (by decide) (by decide) (by decide) (by decide)⟩

/-- Claim C1: when a recipe create or update request carries the tags (or
ingredients) key, the stored recipe's association set afterwards is
exactly the id set the final store resolves the validated requested names
to; associations to names omitted from the request are gone, no
Tag/Ingredient row is deleted by the operation, and an empty requested
list leaves zero associations for that field. -/
theorem claim1_assoc_replacement (db : DB) (uid rid : Nat) (p q : Payload)
    (db' dbc : DB)
    (hnd : (db.recipes.map Recipe.id).Nodup)
    (hok : recipeUpdate db uid rid p = Except.ok db')
    (hokc : recipeCreate db uid q = Except.ok dbc) :
    (∀ rawT ns, p.tags = some rawT → validateNames rawT = some ns →
      ∃ r', findRecipe db' uid rid = some r' ∧
        (∀ i, i ∈ r'.tags ↔
          ∃ n ∈ ns, ∃ e, findEnt db'.tags.rows r'.owner n = some e ∧ e.id = i) ∧
        (∀ e ∈ db.tags.rows, e ∈ db'.tags.rows) ∧
        (ns = [] → r'.tags = [])) ∧
    (∀ rawI ns, p.ingredients = some rawI → validateNames rawI = some ns →
      ∃ r', findRecipe db' uid rid = some r' ∧
        (∀ i, i ∈ r'.ingredients ↔
          ∃ n ∈ ns, ∃ e, findEnt db'.ingredients.rows r'.owner n = some e ∧ e.id = i) ∧
        (∀ e ∈ db.ingredients.rows, e ∈ db'.ingredients.rows) ∧
        (ns = [] → r'.ingredients = [])) ∧
    (∀ rawT ns, q.tags = some rawT → validateNames rawT = some ns →
      ∃ r' ∈ dbc.recipes, r'.owner = uid ∧
        (∀ i, i ∈ r'.tags ↔
          ∃ n ∈ ns, ∃ e, findEnt dbc.tags.rows uid n = some e ∧ e.id = i) ∧
        (∀ e ∈ db.tags.rows, e ∈ dbc.tags.rows) ∧
        (ns = [] → r'.tags = [])) ∧
    (∀ rawI ns, q.ingredients = some rawI → validateNames rawI = some ns →
      ∃ r' ∈ dbc.recipes, r'.owner = uid ∧
        (∀ i, i ∈ r'.ingredients ↔
          ∃ n ∈ ns, ∃ e, findEnt dbc.ingredients.rows uid n = some e ∧ e.id = i) ∧
        (∀ e ∈ db.ingredients.rows, e ∈ dbc.ingredients.rows) ∧
        (ns = [] → r'.ingredients = [])) := by
  obtain ⟨r, tgs, ings, hfr, hvt, hvi, rfl⟩ := recipeUpdate_ok_elim hok
  obtain ⟨title, tm, pr, tgsc, ingsc, hqt, hqm, hqp, hvtc, hvic, rfl⟩ :=
    recipeCreate_ok_elim hokc
  refine ⟨?_, ?_, ?_, ?_⟩
  · intro rawT ns htag hvn
    have hv2 : validateField (some rawT) = some (some ns) := by
      simp only [validateField, hvn]
    rw [htag, hv2] at hvt
    injection hvt with hvt
    subst hvt
    refine ⟨{ r with
        title := p.title.getD r.title
        timeMinutes := p.timeMinutes.getD r.timeMinutes
        price := p.price.getD r.price
        description := p.description.getD r.description
        link := p.link.getD r.link
        tags := (reconcile r.owner ns db.tags).1
        ingredients := (applyAssocField r.owner r.ingredients ings db.ingredients).1 },
      ?_, ?_, ?_, ?_⟩
    · exact find?_setRecipe hnd hfr rfl rfl
    · exact fun i => reconcile_mem r.owner ns db.tags i
    · exact fun e he => reconcile_sub e he
    · intro hns
      subst hns
      rfl
  · intro rawI ns hing hvn
    have hv2 : validateField (some rawI) = some (some ns) := by
      simp only [validateField, hvn]
    rw [hing, hv2] at hvi
    injection hvi with hvi
    subst hvi
    refine ⟨{ r with
        title := p.title.getD r.title
        timeMinutes := p.timeMinutes.getD r.timeMinutes
        price := p.price.getD r.price
        description := p.description.getD r.description
        link := p.link.getD r.link
        tags := (applyAssocField r.owner r.tags tgs db.tags).1
        ingredients := (reconcile r.owner ns db.ingredients).1 },
      ?_, ?_, ?_, ?_⟩
    · exact find?_setRecipe hnd hfr rfl rfl
    · exact fun i => reconcile_mem r.owner ns db.ingredients i
    · exact fun e he => reconcile_sub e he
    · intro hns
      subst hns
      rfl
  · intro rawT ns htag hvn
    have hv2 : validateField (some rawT) = some (some ns) := by
      simp only [validateField, hvn]
    rw [htag, hv2] at hvtc
    injection hvtc with hvtc
    subst hvtc
    refine ⟨Recipe.mk db.nextRecipeId uid title tm pr (q.description.getD "")
        (q.link.getD "") none (reconcile uid ns db.tags).1
        (applyAssocField uid [] ingsc db.ingredients).1,
      ?_, rfl, ?_, ?_, ?_⟩
    · exact List.mem_append_right _ (List.mem_singleton.2 rfl)
    · exact fun i => reconcile_mem uid ns db.tags i
    · exact fun e he => reconcile_sub e he
    · intro hns
      subst hns
      rfl
  · intro rawI ns hing hvn
    have hv2 : validateField (some rawI) = some (some ns) := by
      simp only [validateField, hvn]
    rw [hing, hv2] at hvic
    injection hvic with hvic
    subst hvic
    refine ⟨Recipe.mk db.nextRecipeId uid title tm pr (q.description.getD "")
        (q.link.getD "") none (applyAssocField uid [] tgsc db.tags).1
        (reconcile uid ns db.ingredients).1,
      ?_, rfl, ?_, ?_, ?_⟩
    · exact List.mem_append_right _ (List.mem_singleton.2 rfl)
    · exact fun i => reconcile_mem uid ns db.ingredients i
    · exact fun e he => reconcile_sub e he
    · intro hns
      subst hns
      rfl

def pC1 : Payload := { tags := some [⟨some (RawValue.str "Healthy")⟩] }

def pC1c : Payload :=
  { title := some "Pasta", timeMinutes := some 5, price := some 3,
    ingredients := some [⟨some (RawValue.str "Salt")⟩] }

def updC1 : DB := ((recipeUpdate sampleDB 7 1 pC1).toOption).getD sampleDB

def crtC1 : DB := ((recipeCreate sampleDB 7 pC1c).toOption).getD sampleDB

theorem claim1_witness :
    ((sampleDB.recipes.map Recipe.id).Nodup ∧
      recipeUpdate sampleDB 7 1 pC1 = Except.ok updC1 ∧
      recipeCreate sampleDB 7 pC1c = Except.ok crtC1) ∧
    ((∀ rawT ns, pC1.tags = some rawT → validateNames rawT = some ns →
      ∃ r', findRecipe updC1 7 1 = some r' ∧
        (∀ i, i ∈ r'.tags ↔
          ∃ n ∈ ns, ∃ e, findEnt updC1.tags.rows r'.owner n = some e ∧ e.id = i) ∧
        (∀ e ∈ sampleDB.tags.rows, e ∈ updC1.tags.rows) ∧
        (ns = [] → r'.tags = [])) ∧
     (∀ rawI ns, pC1.ingredients = some rawI → validateNames rawI = some ns →
      ∃ r', findRecipe updC1 7 1 = some r' ∧
        (∀ i, i ∈ r'.ingredients ↔
          ∃ n ∈ ns, ∃ e, findEnt updC1.ingredients.rows r'.owner n = some e ∧ e.id = i) ∧
        (∀ e ∈ sampleDB.ingredients.rows, e ∈ updC1.ingredients.rows) ∧
        (ns = [] → r'.ingredients = [])) ∧
     (∀ rawT ns, pC1c.tags = some rawT → validateNames rawT = some ns →
      ∃ r' ∈ crtC1.recipes, r'.owner = 7 ∧
        (∀ i, i ∈ r'.tags ↔
          ∃ n ∈ ns, ∃ e, findEnt crtC1.tags.rows 7 n = some e ∧ e.id = i) ∧
        (∀ e ∈ sampleDB.tags.rows, e ∈ crtC1.tags.rows) ∧
        (ns = [] → r'.tags = [])) ∧
     (∀ rawI ns, pC1c.ingredients = some rawI → validateNames rawI = some ns →
      ∃ r' ∈ crtC1.recipes, r'.owner = 7 ∧
        (∀ i, i ∈ r'.ingredients ↔
          ∃ n ∈ ns, ∃ e, findEnt crtC1.ingredients.rows 7 n = some e ∧ e.id = i) ∧
        (∀ e ∈ sampleDB.ingredients.rows, e ∈ crtC1.ingredients.rows) ∧
        (ns = [] → r'.ingredients = []))) :=
  ⟨⟨by decide, rfl, rfl⟩,
    claim1_assoc_replacement sampleDB 7 1 pC1 pC1c updC1 crtC1 (by decide) rfl rfl⟩

theorem tagUpdate_notFound {db : DB} {uid eid : Nat} {n : String}
    (hfe : findEntOwned db.tags uid eid = none) :
    tagUpdate db uid eid n = Except.error ApiError.notFound := by
  unfold tagUpdate entUpdateT
  rw [hfe]

theorem tagDelete_notFound {db : DB} {uid eid : Nat}
    (hfe : findEntOwned db.tags uid eid = none) :
    tagDelete db uid eid = Except.error ApiError.notFound := by
  unfold tagDelete entDeleteT
  rw [hfe]

theorem ingredientUpdate_notFound {db : DB} {uid eid : Nat} {n : String}
    (hfe : findEntOwned db.ingredients uid eid = none) :
    ingredientUpdate db uid eid n = Except.error ApiError.notFound := by
  unfold ingredientUpdate entUpdateT
  rw [hfe]

theorem ingredientDelete_notFound {db : DB} {uid eid : Nat}
    (hfe : findEntOwned db.ingredients uid eid = none) :
    ingredientDelete db uid eid = Except.error ApiError.notFound := by
  unfold ingredientDelete entDeleteT
  rw [hfe]

/-- Claim C5: a request that fails validation is rejected and causes no
state change at all: any failing operation leaves the database exactly as
it was (associations and image fields included), and a payload with an
invalid nested field (or a non-image upload) always fails. -/
theorem claim5_validation_all_or_nothing (db : DB) (op : Op) (uid rid : Nat)
    (p : Payload) (e : ApiError)
    (herr : opResult db op = Except.error e)
    (hbad : validateField p.tags = none ∨ validateField p.ingredients = none) :
    applyOp db op = db ∧
    (∃ e', recipeUpdate db uid rid p = Except.error e') ∧
    (∃ e', recipeCreate db uid p = Except.error e') ∧
    (∃ e', uploadImage db uid rid FileVal.badFile = Except.error e') := by
  refine ⟨applyOp_error herr, ?_, ?_, ?_⟩
  · cases hfr : findRecipe db uid rid with
    | none => exact ⟨_, recipeUpdate_notFound hfr⟩
    | some r =>
      rcases hbad with hvt | hvi
      · exact ⟨_, recipeUpdate_badTags hfr hvt⟩
      · cases hvt : validateField p.tags with
        | none => exact ⟨_, recipeUpdate_badTags hfr hvt⟩
        | some tgs => exact ⟨_, recipeUpdate_badIngs hfr hvt hvi⟩
  · cases ht : p.title with
    | none => exact ⟨_, recipeCreate_noTitle ht⟩
    | some title =>
      cases htm : p.timeMinutes with
      | none => exact ⟨_, recipeCreate_noTime ht htm⟩
      | some tm =>
        cases hpr : p.price with
        | none => exact ⟨_, recipeCreate_noPrice ht htm hpr⟩
        | some pr =>
          rcases hbad with hvt | hvi
          · exact ⟨_, recipeCreate_badTags ht htm hpr hvt⟩
          · cases hvt : validateField p.tags with
            | none => exact ⟨_, recipeCreate_badTags ht htm hpr hvt⟩
            | some tgs => exact ⟨_, recipeCreate_badIngs ht htm hpr hvt hvi⟩
  · cases hfr : findRecipe db uid rid with
    | none => exact ⟨_, uploadImage_notFound hfr⟩
    | some r => exact ⟨_, uploadImage_badFile hfr⟩

def pBad : Payload := { tags := some [⟨none⟩] }

theorem claim5_witness :
    (opResult sampleDB (Op.rImage 7 1 FileVal.badFile) =
        Except.error ApiError.validationError ∧
      (validateField pBad.tags = none ∨ validateField pBad.ingredients = none)) ∧
    (applyOp sampleDB (Op.rImage 7 1 FileVal.badFile) = sampleDB ∧
      (∃ e', recipeUpdate sampleDB 7 1 pBad = Except.error e') ∧
      (∃ e', recipeCreate sampleDB 7 pBad = Except.error e') ∧
      (∃ e', uploadImage sampleDB 7 1 FileVal.badFile = Except.error e')) :=
  ⟨⟨rfl, Or.inl rfl⟩,
    claim5_validation_all_or_nothing sampleDB (Op.rImage 7 1 FileVal.badFile) 7 1 pBad
      ApiError.validationError rfl (Or.inl rfl)⟩

/-- Claim C6: addressing another owner's entity id — recipe read, update,
delete or image upload, tag or ingredient update or delete — yields a
uniform not-found error, exactly as if the id did not exist, and the
database (in particular the addressed row) is left unchanged, still
present for its real owner. -/
theorem claim6_other_owner_not_found (db : DB) (uid rid eidT eidI : Nat)
    (p : Payload) (f : FileVal) (n : String)
    (hr : ∀ r ∈ db.recipes, r.id = rid → r.owner ≠ uid)
    (hrex : ∃ r ∈ db.recipes, r.id = rid)
    (ht : ∀ e ∈ db.tags.rows, e.id = eidT → e.owner ≠ uid)
    (hi : ∀ e ∈ db.ingredients.rows, e.id = eidI → e.owner ≠ uid) :
    recipeDetail db uid rid = Except.error ApiError.notFound ∧
    recipeUpdate db uid rid p = Except.error ApiError.notFound ∧
    recipeDelete db uid rid = Except.error ApiError.notFound ∧
    uploadImage db uid rid f = Except.error ApiError.notFound ∧
    tagUpdate db uid eidT n = Except.error ApiError.notFound ∧
    tagDelete db uid eidT = Except.error ApiError.notFound ∧
    ingredientUpdate db uid eidI n = Except.error ApiError.notFound ∧
    ingredientDelete db uid eidI = Except.error ApiError.notFound ∧
    (∀ op e', opResult db op = Except.error e' →
      applyOp db op = db ∧ ∃ r ∈ (applyOp db op).recipes, r.id = rid) := by
  have hfr := findRecipe_none_of_other hr
  have hft := findEntOwned_none_of_other ht
  have hfi := findEntOwned_none_of_other hi
  refine ⟨recipeDetail_notFound hfr, recipeUpdate_notFound hfr,
    recipeDelete_notFound hfr, uploadImage_notFound hfr,
    tagUpdate_notFound hft, tagDelete_notFound hft,
    ingredientUpdate_notFound hfi, ingredientDelete_notFound hfi, ?_⟩
  intro op e' herr
  rw [applyOp_error herr]
  exact ⟨rfl, hrex⟩

theorem claim6_witness :
    ((∀ r ∈ sampleDB.recipes, r.id = 1 → r.owner ≠ 9) ∧
      (∃ r ∈ sampleDB.recipes, r.id = 1) ∧
      (∀ e ∈ sampleDB.tags.rows, e.id = 1 → e.owner ≠ 9) ∧
      (∀ e ∈ sampleDB.ingredients.rows, e.id = 1 → e.owner ≠ 9)) ∧
    (recipeDetail sampleDB 9 1 = Except.error ApiError.notFound ∧
      recipeUpdate sampleDB 9 1 pC1 = Except.error ApiError.notFound ∧
      recipeDelete sampleDB 9 1 = Except.error ApiError.notFound ∧
      uploadImage sampleDB 9 1 FileVal.badFile = Except.error ApiError.notFound ∧
      tagUpdate sampleDB 9 1 "x" = Except.error ApiError.notFound ∧
      tagDelete sampleDB 9 1 = Except.error ApiError.notFound ∧
      ingredientUpdate sampleDB 9 1 "x" = Except.error ApiError.notFound ∧
      ingredientDelete sampleDB 9 1 = Except.error ApiError.notFound ∧
      (∀ op e', opResult sampleDB op = Except.error e' →
        applyOp sampleDB op = sampleDB ∧
          ∃ r ∈ (applyOp sampleDB op).recipes, r.id = 1)) :=
  ⟨⟨by decide, by decide, by decide, by decide⟩,
    claim6_other_owner_not_found sampleDB 9 1 1 1 pC1 FileVal.badFile "x"
      (by decide) (by decide) (by decide) (by decide)⟩

/-- Claim C7: an update whose payload carries an owner value behaves
exactly like the same update without it (the owner mutation is silently
ignored, not rejected): the result is identical, the request still
succeeds, the stored owner is unchanged, and the other updated fields
take effect. -/
theorem claim7_owner_immutable (db : DB) (uid rid x : Nat) (p : Payload) (db' : DB)
    (hnd : (db.recipes.map Recipe.id).Nodup)
    (hok : recipeUpdate db uid rid { p with user := some x } = Except.ok db') :
    recipeUpdate db uid rid { p with user := some x } =
      recipeUpdate db uid rid { p with user := none } ∧
    ∃ r r', findRecipe db uid rid = some r ∧ findRecipe db' uid rid = some r' ∧
      r'.owner = r.owner ∧
      (∀ s, p.title = some s → r'.title = s) ∧
      (∀ m, p.timeMinutes = some m → r'.timeMinutes = m) := by
  obtain ⟨r, tgs, ings, hfr, hvt, hvi, rfl⟩ := recipeUpdate_ok_elim hok
  constructor
  · rw [recipeUpdate_eq_ok hfr hvt hvi,
      recipeUpdate_eq_ok (p := { p with user := none }) hfr hvt hvi]
    exact rfl
  · refine ⟨r, { r with
        title := ({ p with user := some x } : Payload).title.getD r.title
        timeMinutes := ({ p with user := some x } : Payload).timeMinutes.getD r.timeMinutes
        price := ({ p with user := some x } : Payload).price.getD r.price
        description := ({ p with user := some x } : Payload).description.getD r.description
        link := ({ p with user := some x } : Payload).link.getD r.link
        tags := (applyAssocField r.owner r.tags tgs db.tags).1
        ingredients := (applyAssocField r.owner r.ingredients ings db.ingredients).1 },
      hfr, ?_, rfl, ?_, ?_⟩
    · exact find?_setRecipe hnd hfr rfl rfl
    · intro s hs
      simp [hs]
    · intro m hm
      simp [hm]

def pC7 : Payload := { title := some "New" }

def updC7 : DB :=
  ((recipeUpdate sampleDB 7 1 { pC7 with user := some 9 }).toOption).getD sampleDB

theorem claim7_witness :
    ((sampleDB.recipes.map Recipe.id).Nodup ∧
      recipeUpdate sampleDB 7 1 { pC7 with user := some 9 } = Except.ok updC7) ∧
    (recipeUpdate sampleDB 7 1 { pC7 with user := some 9 } =
        recipeUpdate sampleDB 7 1 { pC7 with user := none } ∧
      ∃ r r', findRecipe sampleDB 7 1 = some r ∧ findRecipe updC7 7 1 = some r' ∧
        r'.owner = r.owner ∧
        (∀ s, pC7.title = some s → r'.title = s) ∧
        (∀ m, pC7.timeMinutes = some m → r'.timeMinutes = m)) :=
  ⟨⟨by decide, rfl⟩, claim7_owner_immutable sampleDB 7 1 9 pC7 updC7 (by decide) rfl⟩

/-- Claim C8: a recipe list request with a comma-separated tag (or
ingredient) id filter returns exactly the caller's recipes having at
least one association among the requested ids (OR semantics), each
exactly once, excluding recipes that match none. -/
theorem claim8_recipe_filter (db : DB) (uid : Nat) (s s' : String)
    (hnd : db.recipes.Nodup) :
    (∀ r, r ∈ recipeList db uid (some s) none ↔
      r ∈ db.recipes ∧ r.owner = uid ∧ ∃ i ∈ r.tags, i ∈ parseIds s) ∧
    (recipeList db uid (some s) none).Nodup ∧
    (∀ r ∈ recipeList db uid (some s) none,
      List.count r (recipeList db uid (some s) none) = 1) ∧
    (∀ r, r ∈ recipeList db uid none (some s') ↔
      r ∈ db.recipes ∧ r.owner = uid ∧ ∃ i ∈ r.ingredients, i ∈ parseIds s') ∧
    (recipeList db uid none (some s')).Nodup := by
  have h1 := recipeList_nodup db uid (some s) none hnd
  have h2 := recipeList_nodup db uid none (some s') hnd
  refine ⟨fun r => mem_recipeList_tagsFilter, h1, ?_,
    fun r => mem_recipeList_ingsFilter, h2⟩
  intro r hr
  exact List.count_eq_one_of_mem h1 hr

theorem claim8_witness :
    sampleDB.recipes.Nodup ∧
    ((∀ r, r ∈ recipeList sampleDB 7 (some "1,2") none ↔
      r ∈ sampleDB.recipes ∧ r.owner = 7 ∧ ∃ i ∈ r.tags, i ∈ parseIds "1,2") ∧
    (recipeList sampleDB 7 (some "1,2") none).Nodup ∧
    (∀ r ∈ recipeList sampleDB 7 (some "1,2") none,
      List.count r (recipeList sampleDB 7 (some "1,2") none) = 1) ∧
    (∀ r, r ∈ recipeList sampleDB 7 none (some "1") ↔
      r ∈ sampleDB.recipes ∧ r.owner = 7 ∧ ∃ i ∈ r.ingredients, i ∈ parseIds "1") ∧
    (recipeList sampleDB 7 none (some "1")).Nodup) :=
  ⟨by decide, claim8_recipe_filter sampleDB 7 "1,2" "1" (by decide)⟩

/-- Claim C9: the tag/ingredient list endpoints with the assigned-only
flag return exactly the caller's rows that are associated with at least
one recipe, each exactly once, excluding unassigned rows. -/
theorem claim9_assigned_only (db : DB) (uid : Nat)
    (hT : db.tags.rows.Nodup) (hI : db.ingredients.rows.Nodup) :
    (∀ e, e ∈ tagList db uid true ↔
      e ∈ db.tags.rows ∧ e.owner = uid ∧ ∃ r ∈ db.recipes, e.id ∈ r.tags) ∧
    (tagList db uid true).Nodup ∧
    (∀ e ∈ tagList db uid true, List.count e (tagList db uid true) = 1) ∧
    (∀ e, e ∈ ingredientList db uid true ↔
      e ∈ db.ingredients.rows ∧ e.owner = uid ∧ ∃ r ∈ db.recipes, e.id ∈ r.ingredients) ∧
    (ingredientList db uid true).Nodup := by
  have h1 := entListT_nodup db.tags Recipe.tags db.recipes uid true hT
  have h2 := entListT_nodup db.ingredients Recipe.ingredients db.recipes uid true hI
  refine ⟨fun e => mem_entListT_assigned, h1, ?_,
    fun e => mem_entListT_assigned, h2⟩
  intro e he
  exact List.count_eq_one_of_mem h1 he

theorem claim9_witness :
    (sampleDB.tags.rows.Nodup ∧ sampleDB.ingredients.rows.Nodup) ∧
    ((∀ e, e ∈ tagList sampleDB 7 true ↔
      e ∈ sampleDB.tags.rows ∧ e.owner = 7 ∧ ∃ r ∈ sampleDB.recipes, e.id ∈ r.tags) ∧
    (tagList sampleDB 7 true).Nodup ∧
    (∀ e ∈ tagList sampleDB 7 true, List.count e (tagList sampleDB 7 true) = 1) ∧
    (∀ e, e ∈ ingredientList sampleDB 7 true ↔
      e ∈ sampleDB.ingredients.rows ∧ e.owner = 7 ∧
        ∃ r ∈ sampleDB.recipes, e.id ∈ r.ingredients) ∧
    (ingredientList sampleDB 7 true).Nodup) :=
  ⟨⟨by decide, by decide⟩, claim9_assigned_only sampleDB 7 (by decide) (by decide)⟩

/-- Claim C10: the unfiltered list endpoints return a fixed order — the
recipe list descending by id (most recently created first), the tag and
ingredient lists descending by name. -/
theorem claim10_list_ordering (db : DB) (uid : Nat) :
    (recipeList db uid none none).Pairwise (fun a b => b.id ≤ a.id) ∧
    (tagList db uid false).Pairwise (fun a b => b.name ≤ a.name) ∧
    (ingredientList db uid false).Pairwise (fun a b => b.name ≤ a.name) :=
  ⟨sortDesc_pairwise _ _, sortDesc_pairwise _ _, sortDesc_pairwise _ _⟩
